import Mathlib

/-
Verification of the SnipLink URL-shortener registry core.

Shallow embedding of the registry/allocator subsystem:
  * src/src/types.ts          (storage CRUD, uniqueness, allocator, rate limiter, cleanup)
  * src/src/utils/metadata.ts (normalizeUrl, isExpired, validation helpers)
  * src/src/components/ShortenForm.tsx (the creation flow handleSubmit)

Conventions of the embedding:
  * JavaScript `number` timestamps are embedded as `Int` (milliseconds).
  * `Date.now()` is passed explicitly as a `now : Int` parameter.
  * `localStorage` is embedded as the list of records it currently holds,
    together with a capacity `cap : Nat`; `setItem` succeeds exactly when the
    list fits in the capacity (the serialized-bytes quota is abstracted to a
    record count).  A write that does not fit raises the quota error path.
  * JS truthiness is embedded explicitly: `!u.expiresAt` is true both for
    `null` and for the number `0`.
-/

namespace SnipLink

/-- One visit event, from the `ClickEvent` interface of src/src/types.ts.
Optional client metadata is kept opaque as optional strings. -/
structure ClickEvent where
  timestamp : Int
  referrer : Option String
  deviceType : Option String
  timezone : Option String
  userAgent : Option String
deriving DecidableEq, Repr

/-- A stored record, from the `ShortenedUrl` interface of src/src/types.ts. -/
structure Record where
  id : String
  originalUrl : String
  normalizedUrl : String
  shortCode : String
  customAlias : Option String
  createdAt : Int
  expiresAt : Option Int
  clicks : Nat
  clickHistory : List ClickEvent
deriving DecidableEq, Repr

/-! ## Expiry predicates (src/src/utils/metadata.ts) -/

/-- The expiry predicate `isExpired` of src/src/utils/metadata.ts, with
`Date.now()` passed as `now`.  JS truthiness: `!expiresAt` short-circuits to
`false` both for `null` and for the number `0`. -/
def isExpired (expiresAt : Option Int) (now : Int) : Bool :=
  match expiresAt with
  | none => false
  | some e => if e == 0 then false else decide (e < now)

/-! ## Lifecycle sweep (cleanupExpiredUrls, src/src/types.ts lines 344-377) -/

/-- Seven days in milliseconds, the `gracePeriod` constant of
`cleanupExpiredUrls`. -/
def gracePeriod : Int := 7 * 24 * 60 * 60 * 1000

/-- The history-trim cap of `cleanupExpiredUrls` (keep the last 1000 clicks). -/
def histCap : Nat := 1000

/-- The keep condition of the filter inside `cleanupExpiredUrls`:
`if (!u.expiresAt) return true; return u.expiresAt > now || now - u.expiresAt < gracePeriod`. -/
def keepRecord (now : Int) (u : Record) : Bool :=
  match u.expiresAt with
  | none => true
  | some e => if e == 0 then true else (decide (e > now) || decide (now - e < gracePeriod))

/-- One step of the history-trimming map inside `cleanupExpiredUrls`: returns
whether the record was trimmed, and the record with `clickHistory.slice(-1000)`
(JS `slice(-n)` keeps the last `n` elements). -/
def trimRecord (u : Record) : Bool × Record :=
  if u.clickHistory.length > histCap then
    (true, { u with clickHistory := u.clickHistory.drop (u.clickHistory.length - histCap) })
  else
    (false, u)

/-- Result record of `cleanupExpiredUrls`. -/
structure CleanupResult where
  removed : Nat
  trimmed : Nat
  urls : List Record
deriving DecidableEq, Repr

/-- The pure computation of `cleanupExpiredUrls` (src/src/types.ts lines
344-377) on the loaded record list: filter out records expired past the grace
period, then trim oversized click histories while counting how many records
were trimmed (the source increments a `trimmedCount` counter inside the map). -/
def cleanupCore (now : Int) (all : List Record) : CleanupResult :=
  let active := all.filter (keepRecord now)
  let tl := active.foldr
    (fun u acc =>
      let r := trimRecord u
      ((if r.1 then 1 else 0) + acc.1, r.2 :: acc.2))
    ((0 : Nat), ([] : List Record))
  { removed := all.length - active.length, trimmed := tl.1, urls := tl.2 }

/-! ## Persistence (saveUrls, src/src/types.ts lines 121-144)

`saveUrls` tries `localStorage.setItem`; on a `QuotaExceededError` it runs
`cleanupExpiredUrls()` (which itself conditionally calls `saveUrls` on the
cleaned list) and in every case returns normally: the catch block swallows the
exception, so no error ever reaches the caller.  The mutual recursion through
`cleanupExpiredUrls` is embedded with an explicit fuel counter; the recursion in
the source stops as soon as the cleaned list fits or a sweep changes nothing,
which a fuel of 3 covers. -/

/-- Whether a record list fits in the storage capacity: the model of a
successful `localStorage.setItem`. -/
def sizeFits (cap : Nat) (urls : List Record) : Bool :=
  decide (urls.length ≤ cap)

/-- The `saveUrls` + `cleanupExpiredUrls` write path.  Arguments: fuel, the
current time, the capacity, the list being written, and the list currently
persisted.  Returns the persisted list afterwards, paired with whether an
exception escaped to the caller — which is `false` on every path, because the
source catches every storage error. -/
def saveUrlsAux : Nat → Int → Nat → List Record → List Record → List Record × Bool
  | 0, _, _, _, store => (store, false)
  | fuel + 1, now, cap, urls, store =>
    if sizeFits cap urls then
      (urls, false)
    else
      let c := cleanupCore now store
      if c.removed > 0 || c.trimmed > 0 then
        ((saveUrlsAux fuel now cap c.urls store).1, false)
      else
        (store, false)

/-- `saveUrls` of src/src/types.ts: the fuel instantiated so that the
source's bounded recursion through `cleanupExpiredUrls` is fully unfolded. -/
def saveUrls (now : Int) (cap : Nat) (urls store : List Record) : List Record × Bool :=
  saveUrlsAux 3 now cap urls store

/-! ## Store operations (src/src/types.ts) -/

/-- `addUrl` (src/src/types.ts lines 146-151): load, unshift, save, and
return the unshifted list.  First component: the persisted list afterwards;
second: the list returned to the caller. -/
def addUrl (now : Int) (cap : Nat) (url : Record) (store : List Record) :
    List Record × List Record :=
  let urls := url :: store
  ((saveUrls now cap urls store).1, urls)

/-- `deleteUrl` (src/src/types.ts lines 153-157). -/
def deleteUrl (now : Int) (cap : Nat) (id : String) (store : List Record) :
    List Record × List Record :=
  let urls := store.filter (fun u => u.id ≠ id)
  ((saveUrls now cap urls store).1, urls)

/-- `bulkDeleteUrls` (src/src/types.ts lines 159-163); the JS `Set` of ids is
embedded as a list queried with membership. -/
def bulkDeleteUrls (now : Int) (cap : Nat) (ids : List String) (store : List Record) :
    List Record × List Record :=
  let urls := store.filter (fun u => ¬ ids.contains u.id)
  ((saveUrls now cap urls store).1, urls)

/-- `incrementClicks` (src/src/types.ts lines 194-215): the click event built
from `Date.now()`/`navigator` is passed in as `ev`. -/
def incrementClicks (now : Int) (cap : Nat) (id : String) (ev : ClickEvent)
    (store : List Record) : List Record × List Record :=
  let urls := store.map (fun u =>
    if u.id = id then
      { u with clicks := u.clicks + 1, clickHistory := u.clickHistory ++ [ev] }
    else u)
  ((saveUrls now cap urls store).1, urls)

/-- `cleanupExpiredUrls` as a store operation: computes the sweep over the
loaded list and persists it only when something was removed or trimmed
(src/src/types.ts lines 371-374).  Returns the persisted list and the
`{removed, trimmed, urls}` result returned to the caller. -/
def cleanupExpiredUrls (now : Int) (cap : Nat) (store : List Record) :
    List Record × CleanupResult :=
  let c := cleanupCore now store
  (if c.removed > 0 || c.trimmed > 0 then (saveUrls now cap c.urls store).1 else store, c)

/-! ## Uniqueness and allocation (src/src/types.ts lines 219-267) -/

/-- `isShortCodeUnique` (src/src/types.ts lines 219-222): no stored record has
this `shortCode` (case-sensitive string equality). -/
def isShortCodeUnique (code : String) (store : List Record) : Bool :=
  !(store.any (fun u => u.shortCode == code))

/-- One retry tier of `generateUniqueShortCode`: make `n` attempts calling the
generator at lengths `len`, numbering the calls from `start`, and return the
first code that is unique in the store.  The generator is the embedding of the
impure `generator` callback: call number `i` with requested length `l` returns
`gen i l`. -/
def tryCodes (gen : Nat → Nat → String) (store : List Record) (len : Nat) :
    Nat → Nat → Option String
  | _, 0 => none
  | start, n + 1 =>
    let code := gen start len
    if isShortCodeUnique code store then some code else tryCodes gen store len (start + 1) n

/-- `generateUniqueShortCode` (src/src/types.ts lines 241-267): up to
`maxRetries` attempts at the generator's default length 7 (the only generator
used, `generateShortCode`, defaults to 7), then 3 attempts at length 9, then 2
attempts at length 11; `null` when everything collided. -/
def generateUniqueShortCode (gen : Nat → Nat → String) (store : List Record)
    (maxRetries : Nat) : Option String :=
  match tryCodes gen store 7 0 maxRetries with
  | some code => some code
  | none =>
    match tryCodes gen store 9 maxRetries 3 with
    | some code => some code
    | none => tryCodes gen store 11 (maxRetries + 3) 2

/-! ## Rate limiter (src/src/types.ts lines 269-333) -/

/-- `RateLimitEntry` of src/src/types.ts. -/
structure RateLimitEntry where
  timestamps : List Int
deriving DecidableEq, Repr

/-- The sliding window length, `RATE_LIMIT_WINDOW = 60000` ms. -/
def rateLimitWindow : Int := 60000

/-- The admission cap, `RATE_LIMIT_MAX = 10` per window. -/
def rateLimitMax : Nat := 10

/-- The result record of `checkRateLimit`. -/
structure RateCheck where
  allowed : Bool
  remaining : Int
  resetIn : Int
  nextAvailable : Option Int
deriving DecidableEq, Repr

/-- `checkRateLimit` (src/src/types.ts lines 290-325), with `Date.now()`
passed as `now` and the loaded entry as `entry`.  `Math.ceil(x / 1000)` for the
positive `x` arising here is embedded as `(x + 999).fdiv 1000`. -/
def checkRateLimit (now : Int) (entry : RateLimitEntry) : RateCheck :=
  let recent := entry.timestamps.filter (fun t => decide (now - t < rateLimitWindow))
  let allowed := decide (recent.length < rateLimitMax)
  let remaining : Int := max 0 ((rateLimitMax : Int) - recent.length)
  if recent.length > 0 then
    let oldest := (recent.min?).getD 0
    let resetIn := (rateLimitWindow - (now - oldest) + 999).fdiv 1000
    let nextAvailable :=
      if !allowed && recent.length == rateLimitMax then some (oldest + rateLimitWindow)
      else none
    { allowed := allowed, remaining := remaining, resetIn := resetIn,
      nextAvailable := nextAvailable }
  else
    { allowed := allowed, remaining := remaining, resetIn := 0, nextAvailable := none }

/-- `recordRateLimitHit` (src/src/types.ts lines 327-333): purge the window
and push the current timestamp. -/
def recordRateLimitHit (now : Int) (entry : RateLimitEntry) : RateLimitEntry :=
  { timestamps := entry.timestamps.filter (fun t => decide (now - t < rateLimitWindow)) ++ [now] }

/-! ## JS string primitives -/

/-- Whitespace test covering the characters `trim` strips in the inputs this
model handles (space, tab, newline, carriage return). -/
def isWsChar (c : Char) : Bool :=
  c == ' ' || c == '\t' || c == '\n' || c == '\r'

/-- JS `String.prototype.trim` on a character list: drop whitespace from both
ends. -/
def trimChars (l : List Char) : List Char :=
  ((l.dropWhile isWsChar).reverse.dropWhile isWsChar).reverse

/-- JS `String.prototype.trim` on strings. -/
def jsTrim (s : String) : String :=
  String.mk (trimChars s.data)

/-- A character allowed in a custom alias: `[a-zA-Z0-9_-]`. -/
def isAliasChar (c : Char) : Bool :=
  c.isAlpha || c.isDigit || c == '_' || c == '-'

/-- `isValidAlias` (src/src/utils/metadata.ts lines 142-144): the regex
`/^[a-zA-Z0-9_-]{3,30}$/`. -/
def isValidAlias (a : String) : Bool :=
  decide (3 ≤ a.length) && decide (a.length ≤ 30) && a.data.all isAliasChar

/-! ## The creation flow (handleSubmit, src/src/components/ShortenForm.tsx)

Only the part downstream of URL validation and rate limiting decides the
uniqueness claims: choosing the short code (custom alias with its pre-checks,
or `generateUniqueShortCode`), building the new `ShortenedUrl`, and calling
`addUrl`.  The validated-URL fields, the fresh UUID and the timestamps are
inputs to this step. -/

/-- The creation request, after URL validation: form state plus the fields of
the record that do not depend on the short code. -/
structure CreateInput where
  useCustomAlias : Bool
  customAlias : String
  id : String
  originalUrl : String
  normalizedUrl : String
  createdAt : Int
  expiresAt : Option Int
deriving DecidableEq, Repr

/-- The `ShortenedUrl` object literal built inside `handleSubmit`
(src/src/components/ShortenForm.tsx lines 149-160). -/
def mkShortened (inp : CreateInput) (shortCode : String) (aliasField : Option String) :
    Record :=
  { id := inp.id, originalUrl := inp.originalUrl, normalizedUrl := inp.normalizedUrl,
    shortCode := shortCode, customAlias := aliasField, createdAt := inp.createdAt,
    expiresAt := inp.expiresAt, clicks := 0, clickHistory := [] }

/-- The code-choosing and insertion part of `handleSubmit`
(src/src/components/ShortenForm.tsx lines 121-163).  `none` models an early
return with an error message (invalid alias, taken alias, or exhausted
generation); `some (persisted, returned)` models a successful `addUrl`.
Mirrors the source: the alias path runs only when `useCustomAlias &&
customAlias.trim()` is truthy; the record's `customAlias` field is
`useCustomAlias ? customAlias.trim() : undefined`, which on the generated path
with a blank alias input stores the empty string. -/
def handleSubmitCreate (now : Int) (cap : Nat) (gen : Nat → Nat → String)
    (inp : CreateInput) (store : List Record) : Option (List Record × List Record) :=
  if inp.useCustomAlias && !(jsTrim inp.customAlias).isEmpty then
    let aliasT := jsTrim inp.customAlias
    if !isValidAlias aliasT then none
    else if !isShortCodeUnique aliasT store then none
    else some (addUrl now cap (mkShortened inp aliasT (some aliasT)) store)
  else
    match generateUniqueShortCode gen store 5 with
    | none => none
    | some code =>
      some (addUrl now cap (mkShortened inp code
        (if inp.useCustomAlias then some (jsTrim inp.customAlias) else none)) store)

/-! ## Full application state (for the frame claims) -/

/-- The two persisted key spaces: `sniplink_urls` and `sniplink_rate_limit`. -/
structure AppState where
  urlsStore : List Record
  rateStore : RateLimitEntry
deriving DecidableEq, Repr

/-- `loadRateLimit` as a state reader: `localStorage.getItem` returns the
stored entry and leaves the state as it was. -/
def loadRateLimit (s : AppState) : RateLimitEntry × AppState :=
  (s.rateStore, s)

/-- `saveRateLimit` (src/src/types.ts lines 281-283): overwrite the persisted
rate-limit entry. -/
def saveRateLimit (entry : RateLimitEntry) (s : AppState) : AppState :=
  { s with rateStore := entry }

/-- `checkRateLimit` as it acts on the whole persisted state: it loads the
entry, computes the purged window locally, and performs no write. -/
def checkRateLimitApp (now : Int) (s : AppState) : RateCheck × AppState :=
  let le := loadRateLimit s
  (checkRateLimit now le.1, le.2)

/-- `recordRateLimitHit` as it acts on the whole persisted state: load, purge,
push, and `saveRateLimit` — the only caller of `saveRateLimit` in the source. -/
def recordRateLimitHitApp (now : Int) (s : AppState) : AppState :=
  let le := loadRateLimit s
  saveRateLimit (recordRateLimitHit now le.1) le.2

/-! ## The code/alias uniqueness state machine (claim C1) -/

/-- The lookup keys a record occupies in the code/alias namespace: its
`shortCode`, plus its `customAlias` when that is a non-blank value (the source
treats a blank alias as absent: `u.customAlias || null`). -/
def keys (r : Record) : List String :=
  r.shortCode :: (match r.customAlias with
    | some a => if a = "" then [] else [a]
    | none => [])

/-- Two records share no code/alias key. -/
def KeysDisjoint (r1 r2 : Record) : Prop :=
  ∀ k, k ∈ keys r1 → k ∉ keys r2

/-- Every non-blank alias in the store names its own record's code — true of
every record the creation flow builds, since the alias path uses the alias as
the short code. -/
def AliasConsistent (store : List Record) : Prop :=
  ∀ r ∈ store, ∀ a, r.customAlias = some a → a ≠ "" → a = r.shortCode

/-- The store invariant: pairwise disjoint key sets, and alias consistency. -/
def StoreInv (store : List Record) : Prop :=
  store.Pairwise KeysDisjoint ∧ AliasConsistent store

/-- One public operation on the persisted store: creation (either path of
`handleSubmit`, when it succeeds), deletion, bulk deletion, visit recording,
and the lifecycle sweep.  Every operation goes through the `saveUrls` write
path with arbitrary time and capacity. -/
inductive Step : List Record → List Record → Prop where
  | create (now : Int) (cap : Nat) (gen : Nat → Nat → String) (inp : CreateInput)
      (store out ret : List Record)
      (h : handleSubmitCreate now cap gen inp store = some (out, ret)) :
      Step store out
  | del (now : Int) (cap : Nat) (id : String) (store : List Record) :
      Step store (deleteUrl now cap id store).1
  | bulkDel (now : Int) (cap : Nat) (ids : List String) (store : List Record) :
      Step store (bulkDeleteUrls now cap ids store).1
  | visit (now : Int) (cap : Nat) (id : String) (ev : ClickEvent) (store : List Record) :
      Step store (incrementClicks now cap id ev store).1
  | sweep (now : Int) (cap : Nat) (store : List Record) :
      Step store (cleanupExpiredUrls now cap store).1

/-- A store state reachable from the empty store through the public
operations. -/
def Reachable (store : List Record) : Prop :=
  Relation.ReflTransGen Step [] store

/-! ## Concrete records used by the counterexamples and witnesses -/

/-- A click event with the given timestamp and no metadata. -/
def evAt (t : Int) : ClickEvent :=
  { timestamp := t, referrer := none, deviceType := none, timezone := none, userAgent := none }

def recBoundary : Record :=
  { id := "b", originalUrl := "https://b.example", normalizedUrl := "https://b.example/",
    shortCode := "bbbbbbb", customAlias := none, createdAt := 0, expiresAt := some 100,
    clicks := 0, clickHistory := [] }

def recEpochZero : Record :=
  { recBoundary with id := "z", shortCode := "zzzzzzz", expiresAt := some 0 }

def recNoHist : Record :=
  { recBoundary with id := "n", shortCode := "nnnnnnn", expiresAt := none }

def recBigHist : Record :=
  { recBoundary with
    id := "h"
    shortCode := "hhhhhhh"
    expiresAt := none
    clickHistory := List.replicate 1001 (evAt 0) }

def recConflictA : Record :=
  { id := "id1", originalUrl := "https://a.example", normalizedUrl := "https://a.example/",
    shortCode := "abc", customAlias := none, createdAt := 0, expiresAt := none,
    clicks := 0, clickHistory := [] }

def recConflictB : Record :=
  { recConflictA with
    id := "id2"
    originalUrl := "https://b.example"
    normalizedUrl := "https://b.example/" }

def recStale : Record :=
  { id := "stale", originalUrl := "https://stale.example",
    normalizedUrl := "https://stale.example/", shortCode := "stale01", customAlias := none,
    createdAt := 0, expiresAt := some 100, clicks := 0, clickHistory := [] }

def recFresh : Record :=
  { id := "fresh", originalUrl := "https://fresh.example",
    normalizedUrl := "https://fresh.example/", shortCode := "fresh01", customAlias := none,
    createdAt := 999999990, expiresAt := none, clicks := 0, clickHistory := [] }

/-- The full attempt sequence of `generateUniqueShortCode`, in order: the
claim's three tiers — `maxRetries` generator calls at the default length 7,
then 3 calls at length 9, then 2 calls at length 11. -/
def attemptCodes (gen : Nat → Nat → String) (maxRetries : Nat) : List String :=
  ((List.range maxRetries).map (fun i => gen i 7))
    ++ ((List.range 3).map (fun i => gen (maxRetries + i) 9))
    ++ ((List.range 2).map (fun i => gen (maxRetries + 3 + i) 11))

/-- Run the scenario's `record()` calls: starting from an empty window, record
a hit at each timestamp in order. -/
def runPairs (ts : List Int) : RateLimitEntry :=
  ts.foldl (fun e t => recordRateLimitHit t e) { timestamps := [] }

/-- A constant generator used by the C1 witness. -/
def genConst : Nat → Nat → String := fun _ _ => "zzzzzzz"

/-- A concrete creation request with a custom alias, used by the C1 witness. -/
def inpAlias : CreateInput :=
  { useCustomAlias := true, customAlias := "my-alias", id := "w1",
    originalUrl := "https://w.example", normalizedUrl := "https://w.example/",
    createdAt := 0, expiresAt := none }

/-- The record that creation request stores. -/
def recAliasW : Record := mkShortened inpAlias "my-alias" (some "my-alias")

/-! ## The URL normalizer (normalizeUrl, src/src/utils/metadata.ts lines 154-182)

`normalizeUrl` delegates parsing to the host platform's WHATWG `URL` /
`URLSearchParams` classes, which are not part of this repository.  Those are
modelled below from the spec's canonicalization contract (§4.2): a parser for
`scheme://host[:port]/path[?query][#fragment]` URLs that lowercases the
scheme, keeps the remaining components raw, parses the query into key/value
pairs by splitting on `&` and the first `=`, and fails (sending `normalizeUrl`
to its lowercase-and-trim fallback) on inputs without a hierarchical
`scheme://` shape, with an empty host, with a non-numeric port, or containing
whitespace (which the real platform would percent-encode; the model treats
such URLs as unparseable instead, a documented simplification).  Percent
encoding, userinfo, IPv6 hosts and non-ASCII case folding are outside the
model. -/

/-- A digit `0`-`9`. -/
def isDigitB (c : Char) : Bool :=
  decide (48 ≤ c.toNat ∧ c.toNat ≤ 57)

/-- A character allowed in a URL scheme: ASCII letter, digit, `+`, `-`, `.`. -/
def isSchemeCharB (c : Char) : Bool :=
  decide (65 ≤ c.toNat ∧ c.toNat ≤ 90) || decide (97 ≤ c.toNat ∧ c.toNat ≤ 122)
    || isDigitB c || c == '+' || c == '-' || c == '.'

/-- Split a character list at the first occurrence of `sep`: the part before
it, and `some` rest after it (`none` when `sep` does not occur). -/
def splitFirst (sep : Char) : List Char → List Char × Option (List Char)
  | [] => ([], none)
  | c :: rest =>
    if c == sep then ([], some rest)
    else
      let r := splitFirst sep rest
      (c :: r.1, r.2)

/-- Split a character list at every occurrence of `sep`. -/
def splitAll (sep : Char) : List Char → List (List Char)
  | [] => [[]]
  | c :: rest =>
    let r := splitAll sep rest
    if c == sep then [] :: r
    else
      match r with
      | [] => [[c]]
      | h :: t => (c :: h) :: t

/-- Join character lists with `sep` between them. -/
def joinSep (sep : Char) : List (List Char) → List Char
  | [] => []
  | [p] => p
  | p :: ps => p ++ sep :: joinSep sep ps

/-- Modelled from the spec: `URLSearchParams` query parsing — split on `&`,
drop empty pieces, split each piece at its first `=` (a piece without `=`
becomes a key with empty value).  Percent decoding is not modelled. -/
def parseQueryChars (qs : List Char) : List (List Char × List Char) :=
  ((splitAll '&' qs).filter (fun p => !p.isEmpty)).map
    (fun p =>
      let r := splitFirst '=' p
      (r.1, r.2.getD []))

/-- Modelled from the spec: `URLSearchParams.toString` — serialize each pair
as `key=value` joined by `&`.  Percent encoding is not modelled. -/
def serializeQuery (q : List (List Char × List Char)) : List Char :=
  joinSep '&' (q.map (fun kv => kv.1 ++ '=' :: kv.2))

/-- The string JS compares when sorting query entries: the default
`Array.prototype.sort` comparator stringifies the two-element entry array
`[key, value]` as `key + "," + value`. -/
def sortKey (kv : List Char × List Char) : List Char :=
  kv.1 ++ ',' :: kv.2

/-- Lexicographic comparison of character lists by code point, the model of
JS string comparison (UTF-16 code-unit order agrees with code-point order on
the characters this model handles). -/
def lexLe : List Char → List Char → Bool
  | [], _ => true
  | _ :: _, [] => false
  | a :: as, b :: bs =>
    if a < b then true
    else if b < a then false
    else lexLe as bs

/-- Insert a query entry into a sorted run, before the first entry whose sort
key is not smaller — the stable position. -/
def insertParam (x : List Char × List Char) :
    List (List Char × List Char) → List (List Char × List Char)
  | [] => [x]
  | y :: l => if lexLe (sortKey x) (sortKey y) then x :: y :: l else y :: insertParam x l

/-- Modelled from the spec: `[...params.entries()].sort()` — a stable sort
(required of `Array.prototype.sort` since ES2019) of the query entries by
their stringified form.  Insertion sort is stable, so it computes the same
permutation. -/
def sortParams : List (List Char × List Char) → List (List Char × List Char)
  | [] => []
  | x :: l => insertParam x (sortParams l)

/-- The components of a parsed URL, the model of the platform `URL` object as
far as `normalizeUrl` consumes it. -/
structure UrlParts where
  scheme : List Char
  host : List Char
  port : Option (List Char)
  path : List Char
  query : List (List Char × List Char)
  fragment : Option (List Char)
deriving DecidableEq, Repr

/-- Modelled from the spec: the core of the platform URL parser on a trimmed,
whitespace-free input.  Splits `scheme : // host [: port] / path [? query]
[# fragment]`, lowercases the scheme, requires a nonempty scheme of scheme
characters, the literal `//`, a nonempty host, and an all-digit (or absent)
port; the path always starts with `/` (defaulting to `/` alone). -/
def parseCore (t : List Char) : Option UrlParts :=
  let s0 := splitFirst ':' t
  match s0.2 with
  | none => none
  | some rest =>
    if s0.1.isEmpty then none
    else if !(s0.1.all isSchemeCharB) then none
    else
      match rest with
      | '/' :: '/' :: rest2 =>
        let s1 := splitFirst '#' rest2
        let s2 := splitFirst '?' s1.1
        let s3 := splitFirst '/' s2.1
        let path := match s3.2 with | none => ['/'] | some pr => '/' :: pr
        let s4 := splitFirst ':' s3.1
        if s4.1.isEmpty then none
        else
          match s4.2 with
          | none =>
            some { scheme := s0.1.map Char.toLower, host := s4.1, port := none,
                   path := path,
                   query := (match s2.2 with | none => [] | some qs => parseQueryChars qs),
                   fragment := s1.2 }
          | some ps =>
            if ps.isEmpty then
              some { scheme := s0.1.map Char.toLower, host := s4.1, port := none,
                     path := path,
                     query := (match s2.2 with | none => [] | some qs => parseQueryChars qs),
                     fragment := s1.2 }
            else if ps.all isDigitB then
              some { scheme := s0.1.map Char.toLower, host := s4.1, port := some ps,
                     path := path,
                     query := (match s2.2 with | none => [] | some qs => parseQueryChars qs),
                     fragment := s1.2 }
            else none
      | _ => none

/-- Modelled from the spec: `new URL(url)` — trim, reject inputs still
containing whitespace (the platform would percent-encode them; see the section
comment), then parse. -/
def parseUrl (l : List Char) : Option UrlParts :=
  let t := trimChars l
  if t.any isWsChar then none else parseCore t

/-- Whether the port is the scheme's default, from the explicit check in
`normalizeUrl` (src/src/utils/metadata.ts lines 160-165): `http` with port 80
or `https` with port 443. -/
def isDefaultPort (scheme : List Char) (port : Option (List Char)) : Bool :=
  (scheme == "http".data && port == some ('8' :: '0' :: []))
    || (scheme == "https".data && port == some ('4' :: '4' :: '3' :: []))

/-- The trailing-slash removal of `normalizeUrl` (src/src/utils/metadata.ts
lines 172-177): drop one final `/` unless the path is just `/`. -/
def stripTrailingSlash (path : List Char) : List Char :=
  if path.length > 1 && path.getLast? == some '/' then path.dropLast else path

/-- The canonicalization steps of `normalizeUrl` on parsed components
(src/src/utils/metadata.ts lines 157-177): lowercase the hostname, drop a
default port, drop the fragment, sort the query parameters, and strip one
trailing slash from the path. -/
def normalizeParts (p : UrlParts) : UrlParts :=
  { scheme := p.scheme
    host := p.host.map Char.toLower
    port := if isDefaultPort p.scheme p.port then none else p.port
    path := stripTrailingSlash p.path
    query := sortParams p.query
    fragment := none }

/-- Modelled from the spec: `URL.toString` on the model's components. -/
def serializeUrl (p : UrlParts) : List Char :=
  p.scheme ++ ':' :: '/' :: '/' :: p.host
    ++ (match p.port with | none => [] | some ps => ':' :: ps)
    ++ p.path
    ++ (match p.query with | [] => [] | q => '?' :: serializeQuery q)
    ++ (match p.fragment with | none => [] | some f => '#' :: f)

/-- `normalizeUrl` (src/src/utils/metadata.ts lines 154-182): parse and
canonicalize, or on parse failure fall back to the lowercased, trimmed
input. -/
def normalizeUrl (s : String) : String :=
  match parseUrl s.data with
  | some p => String.mk (serializeUrl (normalizeParts p))
  | none => String.mk (trimChars (s.data.map Char.toLower))

/-- The invariants of a parsed-and-normalized URL that make serialization
re-parse to the same components. -/
structure Canon (p : UrlParts) : Prop where
  scheme_ne : p.scheme ≠ []
  scheme_ok : p.scheme.all isSchemeCharB = true
  scheme_low : p.scheme.map Char.toLower = p.scheme
  host_ne : p.host ≠ []
  host_ok : ∀ c ∈ p.host, c ≠ ':' ∧ c ≠ '/' ∧ c ≠ '?' ∧ c ≠ '#' ∧ isWsChar c = false
  port_ok : ∀ ps, p.port = some ps → ps ≠ [] ∧ ps.all isDigitB = true
  path_shape : ∃ pr, p.path = '/' :: pr
  path_ok : ∀ c ∈ p.path, c ≠ '?' ∧ c ≠ '#' ∧ isWsChar c = false
  query_ok : ∀ kv ∈ p.query,
    (∀ c ∈ kv.1, c ≠ '&' ∧ c ≠ '=' ∧ c ≠ '#' ∧ isWsChar c = false)
    ∧ (∀ c ∈ kv.2, c ≠ '&' ∧ c ≠ '#' ∧ isWsChar c = false)
  frag_none : p.fragment = none

/-! ## Helper lemmas about the sweep -/

theorem cleanup_fold_eq (l : List Record) :
    l.foldr
      (fun u acc =>
        let r := trimRecord u
        ((if r.1 then 1 else 0) + acc.1, r.2 :: acc.2))
      ((0 : Nat), ([] : List Record))
    = (l.countP (fun u => (trimRecord u).1), l.map (fun u => (trimRecord u).2)) := by
  induction l with
  | nil => simp
  | cons u l ih =>
    simp only [List.foldr_cons, ih, List.countP_cons, List.map_cons]
    refine Prod.ext ?_ rfl
    simp only
    omega

theorem cleanupCore_urls (now : Int) (all : List Record) :
    (cleanupCore now all).urls
      = (all.filter (keepRecord now)).map (fun u => (trimRecord u).2) := by
  simp only [cleanupCore, cleanup_fold_eq]

theorem cleanupCore_trimmed (now : Int) (all : List Record) :
    (cleanupCore now all).trimmed
      = (all.filter (keepRecord now)).countP (fun u => (trimRecord u).1) := by
  simp only [cleanupCore, cleanup_fold_eq]

theorem cleanupCore_removed (now : Int) (all : List Record) :
    (cleanupCore now all).removed
      = (all.filter (fun u => !keepRecord now u)).length := by
  simp only [cleanupCore]
  induction all with
  | nil => rfl
  | cons u l ih =>
    have hle := List.length_filter_le (keepRecord now) l
    by_cases h : keepRecord now u
    · simp [List.filter_cons, h] at ih ⊢
      omega
    · simp only [Bool.not_eq_true] at h
      simp [List.filter_cons, h] at ih ⊢
      omega

theorem keepRecord_false_iff (now : Int) (u : Record) :
    keepRecord now u = false
      ↔ ∃ e, u.expiresAt = some e ∧ e ≠ 0 ∧ now - e ≥ gracePeriod := by
  cases h : u.expiresAt with
  | none => simp [keepRecord, h]
  | some e =>
    by_cases he : e = 0
    · subst he
      simp [keepRecord, h]
    · simp only [keepRecord, h, if_neg (by simpa using he : ¬ ((e == 0) = true))]
      simp only [Bool.or_eq_false_iff, decide_eq_false_iff_not, not_lt,
        Option.some.injEq]
      constructor
      · rintro ⟨h1, h2⟩
        exact ⟨e, rfl, he, h2⟩
      · rintro ⟨e', he', hne, hge⟩
        subst he'
        constructor
        · have : (0 : Int) < gracePeriod := by decide
          omega
        · exact hge

theorem trimRecord_clicks (u : Record) : ((trimRecord u).2).clicks = u.clicks := by
  unfold trimRecord
  split <;> rfl

theorem trimRecord_shortCode (u : Record) :
    ((trimRecord u).2).shortCode = u.shortCode := by
  unfold trimRecord
  split <;> rfl

theorem trimRecord_customAlias (u : Record) :
    ((trimRecord u).2).customAlias = u.customAlias := by
  unfold trimRecord
  split <;> rfl

theorem trimRecord_small (u : Record) (h : u.clickHistory.length ≤ histCap) :
    (trimRecord u).2 = u := by
  unfold trimRecord
  rw [if_neg (by omega)]

theorem trimRecord_big (u : Record) (h : u.clickHistory.length > histCap) :
    ∃ pre, u.clickHistory = pre ++ ((trimRecord u).2).clickHistory
      ∧ (((trimRecord u).2).clickHistory).length = histCap := by
  have h3 : ((trimRecord u).2).clickHistory
      = u.clickHistory.drop (u.clickHistory.length - histCap) := by
    unfold trimRecord
    rw [if_pos h]
  rw [h3]
  refine ⟨u.clickHistory.take (u.clickHistory.length - histCap), ?_, ?_⟩
  · exact (List.take_append_drop _ _).symm
  · rw [List.length_drop]
    omega

theorem trimRecord_fst (u : Record) :
    (trimRecord u).1 = decide (u.clickHistory.length > histCap) := by
  unfold trimRecord
  split
  · rename_i h
    simp [h]
  · rename_i h
    simp [h]



/-! ## Claim C2 — the Store insert performs no conflict check -/

/-- C2, counterexample: with `"abc"` already present — so `isShortCodeUnique`
reports a conflict — `addUrl` neither fails with a `ConflictError` nor leaves
the Store unchanged: it durably commits the conflicting record, after which two
stored records carry the code `"abc"`. -/
theorem c2_insert_counterexample :
    isShortCodeUnique recConflictB.shortCode [recConflictA] = false
  ∧ (addUrl 0 5 recConflictB [recConflictA]).1 = [recConflictB, recConflictA]
  ∧ ((addUrl 0 5 recConflictB [recConflictA]).1.countP
      (fun u => u.shortCode == "abc")) = 2 := by
  decide

/-- C2, amended: `addUrl` performs no conflict check at all.  It always
returns the record prepended to the loaded list, and whenever the persistence
write fits it commits exactly that list — including when the record's code or
alias is already present.  Uniqueness is enforced only by the callers'
pre-insert checks (`isShortCodeUnique` in the creation flow). -/
theorem c2_insert_no_conflict_check (now : Int) (cap : Nat) (r : Record)
    (store : List Record) :
    (addUrl now cap r store).2 = r :: store
  ∧ (sizeFits cap (r :: store) = true → (addUrl now cap r store).1 = r :: store) := by
  constructor
  · rfl
  · intro h
    simp [addUrl, saveUrls, saveUrlsAux, h]

/-- Witness for C2's amended theorem at a concrete conflicting insert. -/
theorem c2_insert_no_conflict_check_witness :
    (addUrl 0 5 recConflictB [recConflictA]).2 = recConflictB :: [recConflictA]
  ∧ (addUrl 0 5 recConflictB [recConflictA]).1 = recConflictB :: [recConflictA] :=
  ⟨(c2_insert_no_conflict_check 0 5 recConflictB [recConflictA]).1,
   (c2_insert_no_conflict_check 0 5 recConflictB [recConflictA]).2 (by decide)⟩

/-! ## Claim C3 — write failures are swallowed, not retried and surfaced -/

/-- C3, counterexample: with capacity 1 and a stale record persisted, writing
the two-record list fails; the Store runs one sweep (which frees the stale
record) but never retries the attempted write and surfaces nothing: the final
persisted list is empty — the new record is silently dropped — and the escaped
exception flag is `false`. -/
theorem c3_write_failure_counterexample :
    sizeFits 1 [recFresh, recStale] = false
  ∧ saveUrls 999999999 1 [recFresh, recStale] [recStale] = ([], false) := by
  decide

/-- C3, amended: when a persistence write fails, `saveUrls` swallows the
failure.  No error ever escapes to the caller; a fitting write commits exactly
the written list; and a failing write whose recovery sweep removes and trims
nothing leaves the old persisted list in place, silently dropping the
mutation.  The original write is never retried. -/
theorem c3_write_failure_swallowed (fuel : Nat) (now : Int) (cap : Nat)
    (urls store : List Record) :
    (saveUrlsAux fuel now cap urls store).2 = false
  ∧ (0 < fuel → sizeFits cap urls = true →
      (saveUrlsAux fuel now cap urls store).1 = urls)
  ∧ (0 < fuel → sizeFits cap urls = false → (cleanupCore now store).removed = 0 →
      (cleanupCore now store).trimmed = 0 →
      (saveUrlsAux fuel now cap urls store).1 = store) := by
  refine ⟨?_, ?_, ?_⟩
  · cases fuel with
    | zero => rfl
    | succ n =>
      simp only [saveUrlsAux]
      split
      · rfl
      · split
        · rfl
        · rfl
  · intro hf hfit
    cases fuel with
    | zero => omega
    | succ n => simp [saveUrlsAux, hfit]
  · intro hf hfit h1 h2
    cases fuel with
    | zero => omega
    | succ n => simp [saveUrlsAux, hfit, h1, h2]

/-- Witness for C3's amended theorem: a fitting write commits, a failing write
over an unsweepable store is dropped, and neither surfaces an error. -/
theorem c3_write_failure_swallowed_witness :
    (saveUrlsAux 3 0 5 [recFresh] []).2 = false
  ∧ (saveUrlsAux 3 0 5 [recFresh] []).1 = [recFresh]
  ∧ (saveUrlsAux 3 0 0 [recFresh] []).1 = [] :=
  ⟨(c3_write_failure_swallowed 3 0 5 [recFresh] []).1,
   (c3_write_failure_swallowed 3 0 5 [recFresh] []).2.1 (by decide) (by decide),
   (c3_write_failure_swallowed 3 0 0 [recFresh] []).2.2 (by decide) (by decide)
     (by decide) (by decide)⟩

/-! ## Claim C4 — sweep postcondition -/

/-- C4, counterexample: a record that expired exactly 7 days ago — which does
not *exceed* the grace period — is nevertheless removed by the sweep (the
source removes at `now - expiresAt ≥ gracePeriod`); and a record with
`expiresAt = 0` is never removed no matter how old (JS `!u.expiresAt`
truthiness), although its expiry is set and long past the grace period. -/
theorem c4_sweep_counterexample :
    (cleanupCore (100 + gracePeriod) [recBoundary]).removed = 1
  ∧ (cleanupCore 999999999999 [recEpochZero]).urls = [recEpochZero] := by
  constructor
  · decide
  · decide

/-- C4, amended: the sweep removes exactly the records whose `expiresAt` is a
nonzero set value `e` with `now - e ≥` the 7-day grace period (so removal
already happens at exactly 7 days, and an `expiresAt` of `0` is treated as
never-expiring); every surviving record with more than 1000 click events is
rewritten to exactly its most recent 1000 events in original order with its
click counter unchanged, and the returned counts equal the number of records
removed and trimmed. -/
theorem c4_sweep_postcondition (now : Int) (all : List Record) :
    (cleanupCore now all).urls
      = (all.filter (keepRecord now)).map (fun u => (trimRecord u).2)
  ∧ (cleanupCore now all).removed = (all.filter (fun u => !keepRecord now u)).length
  ∧ (cleanupCore now all).trimmed
      = (all.filter (keepRecord now)).countP
          (fun u => decide (u.clickHistory.length > histCap))
  ∧ (∀ u : Record, keepRecord now u = false
      ↔ ∃ e, u.expiresAt = some e ∧ e ≠ 0 ∧ now - e ≥ gracePeriod)
  ∧ (∀ u : Record, ((trimRecord u).2).clicks = u.clicks)
  ∧ (∀ u : Record, u.clickHistory.length ≤ histCap → (trimRecord u).2 = u)
  ∧ (∀ u : Record, u.clickHistory.length > histCap →
      ∃ pre, u.clickHistory = pre ++ ((trimRecord u).2).clickHistory
        ∧ (((trimRecord u).2).clickHistory).length = histCap) := by
  refine ⟨cleanupCore_urls now all, cleanupCore_removed now all, ?_,
    fun u => keepRecord_false_iff now u, trimRecord_clicks, trimRecord_small, trimRecord_big⟩
  rw [cleanupCore_trimmed]
  simp only [trimRecord_fst]

set_option maxRecDepth 4000 in
/-- Witness for C4 at concrete records: a small history is untouched, a
1001-event history is cut to its most recent 1000. -/
theorem c4_sweep_postcondition_witness :
    (trimRecord recNoHist).2 = recNoHist
  ∧ (∃ pre, recBigHist.clickHistory = pre ++ ((trimRecord recBigHist).2).clickHistory
      ∧ (((trimRecord recBigHist).2).clickHistory).length = histCap) :=
  ⟨(c4_sweep_postcondition 0 []).2.2.2.2.2.1 recNoHist (by decide),
   (c4_sweep_postcondition 0 []).2.2.2.2.2.2 recBigHist
     (by
       have h : recBigHist.clickHistory.length = 1001 := by
         show (List.replicate 1001 (evAt 0)).length = 1001
         rw [List.length_replicate]
       rw [h]
       decide)⟩

/-! ## Claim C5 — the expiry predicate at the boundary -/

/-- C5, counterexample: at the very instant `now = expiresAt` the predicate
answers `false` (not yet expired), because the source compares with strict
`<`; and `expiresAt = 0` is reported as never expired even when far in the
past, because of JS `!expiresAt` truthiness. -/
theorem c5_expiry_counterexample :
    isExpired (some 5) 5 = false ∧ isExpired (some 0) 10 = false := by
  decide

/-- C5, amended: `isExpired` ignores a `null` expiry; is `false` whenever
`expiresAt > now`; is `true` whenever `expiresAt` is nonzero and strictly
before `now`; and at the instant `now = expiresAt` it still answers `false` —
the record becomes expired only strictly after its expiry timestamp. -/
theorem c5_expiry_predicate (e now : Int) :
    isExpired none now = false
  ∧ (now < e → isExpired (some e) now = false)
  ∧ (e ≠ 0 → e < now → isExpired (some e) now = true)
  ∧ isExpired (some now) now = false := by
  refine ⟨rfl, ?_, ?_, ?_⟩
  · intro h
    by_cases he : e = 0
    · subst he
      rfl
    · simp only [isExpired, if_neg (by simpa using he : ¬ ((e == 0) = true))]
      simpa using by omega
  · intro hne hlt
    simp only [isExpired, if_neg (by simpa using hne : ¬ ((e == 0) = true))]
    simpa using hlt
  · by_cases hn : now = 0
    · subst hn
      rfl
    · simp only [isExpired, if_neg (by simpa using hn : ¬ ((now == 0) = true))]
      simp

/-- Witness for C5 at concrete instants around the boundary. -/
theorem c5_expiry_predicate_witness :
    isExpired none 9 = false ∧ isExpired (some 10) 9 = false
  ∧ isExpired (some 7) 9 = true ∧ isExpired (some 9) 9 = false :=
  ⟨(c5_expiry_predicate 10 9).1, (c5_expiry_predicate 10 9).2.1 (by decide),
   (c5_expiry_predicate 7 9).2.2.1 (by decide) (by decide),
   (c5_expiry_predicate 7 9).2.2.2⟩

/-! ## Claim C7 — allocator retry escalation -/



theorem tryCodes_eq_find (gen : Nat → Nat → String) (store : List Record) (len : Nat) :
    ∀ (n start : Nat),
      tryCodes gen store len start n
        = ((List.range n).map (fun i => gen (start + i) len)).find?
            (fun c => isShortCodeUnique c store) := by
  intro n
  induction n with
  | zero => intro start; rfl
  | succ m ih =>
    intro start
    rw [List.range_succ_eq_map, List.map_cons, List.map_map]
    have harith : ((fun i => gen (start + i) len) ∘ Nat.succ)
        = (fun i => gen (start + 1 + i) len) := by
      funext i
      simp only [Function.comp]
      congr 1
      omega
    rw [harith]
    simp only [Nat.add_zero]
    simp only [tryCodes]
    by_cases h : isShortCodeUnique (gen start len) store
    · rw [if_pos h, List.find?_cons_of_pos _ (by simpa using h)]
    · rw [if_neg h, List.find?_cons_of_neg _ (by simpa using h), ih (start + 1)]

/-- C7: with the default `maxRetries = 5` (the only value the creation flow
uses), `generateUniqueShortCode` returns exactly the first non-colliding code
of the 10-attempt escalation sequence 5×length-7, 3×length-9, 2×length-11 —
later tiers are consulted only when every earlier attempt collides — and it
fails exactly when all 10 attempts collide. -/
theorem c7_allocator_escalation (gen : Nat → Nat → String) (store : List Record) :
    generateUniqueShortCode gen store 5
      = (attemptCodes gen 5).find? (fun c => isShortCodeUnique c store)
  ∧ (generateUniqueShortCode gen store 5 = none ↔
      ∀ c ∈ attemptCodes gen 5, isShortCodeUnique c store = false) := by
  have h7 := tryCodes_eq_find gen store 7 5 0
  have h9 := tryCodes_eq_find gen store 9 3 5
  have h11 := tryCodes_eq_find gen store 11 2 8
  have hmain : generateUniqueShortCode gen store 5
      = (attemptCodes gen 5).find? (fun c => isShortCodeUnique c store) := by
    unfold generateUniqueShortCode attemptCodes
    rw [h7, h9, h11, List.find?_append, List.find?_append]
    simp only [Nat.zero_add]
    cases hf1 : ((List.range 5).map (fun i => gen i 7)).find?
        (fun c => isShortCodeUnique c store) with
    | some c => rfl
    | none =>
      cases hf2 : ((List.range 3).map (fun i => gen (5 + i) 9)).find?
          (fun c => isShortCodeUnique c store) with
      | some c => rfl
      | none => rfl
  refine ⟨hmain, ?_⟩
  rw [hmain, List.find?_eq_none]
  simp [Bool.not_eq_true]

/-! ## Claim C6 — the sliding-window rate limiter scenario -/



theorem recordRateLimitHit_keep (t : Int) (acc : List Int)
    (h : ∀ a ∈ acc, t - a < rateLimitWindow) :
    recordRateLimitHit t { timestamps := acc } = { timestamps := acc ++ [t] } := by
  have hf : acc.filter (fun a => decide (t - a < rateLimitWindow)) = acc :=
    List.filter_eq_self.mpr (fun a ha => by simpa using h a ha)
  simp only [recordRateLimitHit, hf]

theorem runPairs_eq_aux (ts : List Int) : ∀ acc : List Int,
    (acc ++ ts).Pairwise (fun a b => b - a < rateLimitWindow) →
    List.foldl (fun e t => recordRateLimitHit t e) { timestamps := acc } ts
      = { timestamps := acc ++ ts } := by
  induction ts with
  | nil => intro acc _; simp
  | cons t ts ih =>
    intro acc h
    have hassoc : acc ++ t :: ts = (acc ++ [t]) ++ ts := by simp
    have hcross : ∀ a ∈ acc, t - a < rateLimitWindow := by
      have hsp := List.pairwise_append.mp h
      exact fun a ha => hsp.2.2 a ha t (by simp)
    rw [List.foldl_cons, recordRateLimitHit_keep t acc hcross,
      ih (acc ++ [t]) (by rw [← hassoc]; exact h), hassoc]

theorem runPairs_eq (ts : List Int)
    (h : ts.Pairwise (fun a b => b - a < rateLimitWindow)) :
    runPairs ts = { timestamps := ts } := by
  have hr := runPairs_eq_aux ts [] (by simpa using h)
  simpa [runPairs] using hr

theorem sorted_head_le (t1 : Int) (rest : List Int)
    (hsort : (t1 :: rest).Pairwise (· ≤ ·)) :
    ∀ t ∈ t1 :: rest, t1 ≤ t := by
  intro t ht
  rcases List.mem_cons.mp ht with h | h
  · exact le_of_eq h.symm
  · exact (List.pairwise_cons.mp hsort).1 t h

theorem pairwise_within (t1 : Int) (rest : List Int)
    (hsort : (t1 :: rest).Pairwise (· ≤ ·))
    (hspread : ∀ t ∈ t1 :: rest, t - t1 < rateLimitWindow) :
    (t1 :: rest).Pairwise (fun a b => b - a < rateLimitWindow) := by
  have hge := sorted_head_le t1 rest hsort
  refine hsort.imp_of_mem ?_
  intro a b ha hb hab
  have h1 := hge a ha
  have h2 := hspread b hb
  omega

theorem foldl_min_eq (l : List Int) : ∀ b : Int, (∀ x ∈ l, b ≤ x) → l.foldl min b = b := by
  induction l with
  | nil => intro b _; rfl
  | cons x xs ih =>
    intro b hb
    rw [List.foldl_cons, min_eq_left (hb x (by simp))]
    exact ih b (fun y hy => hb y (by simp [hy]))

theorem min?_sorted_head (t1 : Int) (rest : List Int)
    (h : ∀ x ∈ rest, t1 ≤ x) :
    (t1 :: rest).min? = some t1 := by
  show some (rest.foldl min t1) = some t1
  rw [foldl_min_eq rest t1 h]

theorem checkRateLimit_allowed (now : Int) (e : RateLimitEntry) :
    (checkRateLimit now e).allowed
      = decide ((e.timestamps.filter (fun t => decide (now - t < rateLimitWindow))).length
          < rateLimitMax) := by
  simp only [checkRateLimit]
  split <;> rfl

/-- C6: starting from an empty window with max 10 and a 60 s window, ten
`check()+record()` pairs at nondecreasing instants all within 60 ms of the
first all admit; an eleventh `check()` within 60 s of the first reports
`allowed = false` with `nextAvailable` equal to the first recorded timestamp
plus 60 000; and any `check()` strictly after that instant admits again. -/
theorem c6_rate_limiter_scenario (t1 : Int) (rest : List Int)
    (hlen : rest.length = 9)
    (hsort : (t1 :: rest).Pairwise (· ≤ ·))
    (hspread : ∀ t ∈ t1 :: rest, t - t1 < rateLimitWindow) :
    (∀ (k : Nat) (hk : k < (t1 :: rest).length),
      (checkRateLimit ((t1 :: rest).get ⟨k, hk⟩)
        (runPairs ((t1 :: rest).take k))).allowed = true)
  ∧ runPairs (t1 :: rest) = { timestamps := t1 :: rest }
  ∧ (∀ t : Int, t - t1 < rateLimitWindow →
      (checkRateLimit t (runPairs (t1 :: rest))).allowed = false
      ∧ (checkRateLimit t (runPairs (t1 :: rest))).nextAvailable
          = some (t1 + rateLimitWindow))
  ∧ (∀ t : Int, t1 + rateLimitWindow < t →
      (checkRateLimit t (runPairs (t1 :: rest))).allowed = true) := by
  have hge := sorted_head_le t1 rest hsort
  have hP := pairwise_within t1 rest hsort hspread
  have hfull := runPairs_eq (t1 :: rest) hP
  have hlength : (t1 :: rest).length = 10 := by simp [hlen]
  refine ⟨?_, hfull, ?_, ?_⟩
  · intro k hk
    have hpre : ((t1 :: rest).take k).Pairwise (fun a b => b - a < rateLimitWindow) :=
      hP.sublist (List.take_sublist k (t1 :: rest))
    rw [runPairs_eq _ hpre, checkRateLimit_allowed]
    have hall : ∀ a ∈ (t1 :: rest).take k,
        (t1 :: rest).get ⟨k, hk⟩ - a < rateLimitWindow := by
      intro a ha
      obtain ⟨i, hi, rfl⟩ := List.getElem_of_mem ha
      have hik : i < k := by
        have hlt := List.length_take k (t1 :: rest)
        omega
      rw [List.getElem_take]
      rw [List.get_eq_getElem]
      exact List.pairwise_iff_getElem.mp hP i k (by omega) (by omega) hik
    have hfil : ((t1 :: rest).take k).filter
        (fun a => decide ((t1 :: rest).get ⟨k, hk⟩ - a < rateLimitWindow))
        = (t1 :: rest).take k :=
      List.filter_eq_self.mpr (fun a ha => by simpa using hall a ha)
    rw [hfil]
    have hlk : ((t1 :: rest).take k).length = k := by
      rw [List.length_take]
      omega
    rw [hlk]
    simp only [decide_eq_true_eq, rateLimitMax]
    omega
  · intro t ht
    rw [hfull]
    have hallw : ∀ a ∈ t1 :: rest, t - a < rateLimitWindow := by
      intro a ha
      have h1 := hge a ha
      omega
    have hfil : (t1 :: rest).filter (fun a => decide (t - a < rateLimitWindow))
        = t1 :: rest :=
      List.filter_eq_self.mpr (fun a ha => by simpa using hallw a ha)
    have hmin : (t1 :: rest).min? = some t1 :=
      min?_sorted_head t1 rest (fun x hx => hge x (by simp [hx]))
    constructor
    · rw [checkRateLimit_allowed]
      show decide ((({ timestamps := t1 :: rest } : RateLimitEntry).timestamps.filter
        (fun a => decide (t - a < rateLimitWindow))).length < rateLimitMax) = false
      simp only [hfil, hlength, rateLimitMax]
      decide
    · simp only [checkRateLimit, hfil, hlength, hmin, rateLimitMax]
      norm_num
  · intro t ht
    rw [hfull, checkRateLimit_allowed]
    have hnot : ¬ (t - t1 < rateLimitWindow) := by omega
    have hfe : (t1 :: rest).filter (fun a => decide (t - a < rateLimitWindow))
        = rest.filter (fun a => decide (t - a < rateLimitWindow)) := by
      rw [List.filter_cons]
      simp [hnot]
    show decide ((({ timestamps := t1 :: rest } : RateLimitEntry).timestamps.filter
      (fun a => decide (t - a < rateLimitWindow))).length < rateLimitMax) = true
    rw [hfe]
    have hle := List.length_filter_le (fun a => decide (t - a < rateLimitWindow)) rest
    simp only [decide_eq_true_eq, rateLimitMax]
    omega

/-- Witness for C6 at the concrete run 0,1,…,9 with the eleventh check at
100 ms and a later check at 60 001 ms. -/
theorem c6_rate_limiter_scenario_witness :
    runPairs [0, 1, 2, 3, 4, 5, 6, 7, 8, 9]
      = { timestamps := [0, 1, 2, 3, 4, 5, 6, 7, 8, 9] }
  ∧ (checkRateLimit 100 (runPairs [0, 1, 2, 3, 4, 5, 6, 7, 8, 9])).allowed = false
  ∧ (checkRateLimit 100 (runPairs [0, 1, 2, 3, 4, 5, 6, 7, 8, 9])).nextAvailable
      = some 60000
  ∧ (checkRateLimit 60001 (runPairs [0, 1, 2, 3, 4, 5, 6, 7, 8, 9])).allowed = true
  ∧ (checkRateLimit (((0 : Int) :: [1, 2, 3, 4, 5, 6, 7, 8, 9]).get ⟨4, by decide⟩)
      (runPairs (((0 : Int) :: [1, 2, 3, 4, 5, 6, 7, 8, 9]).take 4))).allowed = true := by
  have h := c6_rate_limiter_scenario 0 [1, 2, 3, 4, 5, 6, 7, 8, 9]
    (by decide) (by decide) (by decide)
  exact ⟨h.2.1, (h.2.2.1 100 (by decide)).1, (h.2.2.1 100 (by decide)).2,
    h.2.2.2 60001 (by decide), h.1 4 (by decide)⟩

/-! ## Claim C10 — the rate-limit status check is read-only -/

/-- C10: `checkRateLimit`, acting on the whole persisted state, returns the
state unchanged — the purge of out-of-window timestamps it computes stays
local to the returned result — and the only writer of the window,
`recordRateLimitHit` (the sole caller of `saveRateLimit` in the source),
rewrites the rate window alone and leaves the stored records untouched. -/
theorem c10_rate_check_readonly (now : Int) (s : AppState) :
    (checkRateLimitApp now s).2 = s
  ∧ (recordRateLimitHitApp now s).urlsStore = s.urlsStore
  ∧ (recordRateLimitHitApp now s).rateStore = recordRateLimitHit now s.rateStore :=
  ⟨rfl, rfl, rfl⟩

/-! ## Claim C1 — uniqueness invariant of the reachable stores -/

theorem keys_congr (r1 r2 : Record) (h1 : r1.shortCode = r2.shortCode)
    (h2 : r1.customAlias = r2.customAlias) : keys r1 = keys r2 := by
  unfold keys
  rw [h1, h2]

theorem mem_keys_eq (r : Record)
    (hal : ∀ a, r.customAlias = some a → a ≠ "" → a = r.shortCode) :
    ∀ k ∈ keys r, k = r.shortCode := by
  intro k hk
  unfold keys at hk
  rcases List.mem_cons.mp hk with h | h
  · exact h
  · cases hca : r.customAlias with
    | none =>
      rw [hca] at h
      simp at h
    | some a =>
      rw [hca] at h
      by_cases ha : a = ""
      · simp [ha] at h
      · simp [ha] at h
        rw [h]
        exact hal a hca ha

theorem unique_not_mem_keys (code : String) (store : List Record)
    (hac : AliasConsistent store) (hu : isShortCodeUnique code store = true) :
    ∀ u ∈ store, code ∉ keys u := by
  intro u hmem hk
  have hne : u.shortCode ≠ code := by
    unfold isShortCodeUnique at hu
    simp only [Bool.not_eq_true', List.any_eq_false] at hu
    simpa using hu u hmem
  have := mem_keys_eq u (hac u hmem) code hk
  exact hne (this ▸ rfl)

theorem storeInv_filter (p : Record → Bool) (store : List Record) (h : StoreInv store) :
    StoreInv (store.filter p) :=
  ⟨h.1.filter p, fun r hr => h.2 r (List.mem_of_mem_filter hr)⟩

theorem storeInv_map (f : Record → Record)
    (hf : ∀ u, (f u).shortCode = u.shortCode ∧ (f u).customAlias = u.customAlias)
    (store : List Record) (h : StoreInv store) : StoreInv (store.map f) := by
  constructor
  · rw [List.pairwise_map]
    refine h.1.imp ?_
    intro a b hab
    unfold KeysDisjoint at hab ⊢
    rw [keys_congr (f a) a (hf a).1 (hf a).2, keys_congr (f b) b (hf b).1 (hf b).2]
    exact hab
  · intro r hr a hal hne
    obtain ⟨u, hu, rfl⟩ := List.mem_map.mp hr
    rw [(hf u).1]
    exact h.2 u hu a (by rw [← (hf u).2]; exact hal) hne

theorem storeInv_cleanup (now : Int) (store : List Record) (h : StoreInv store) :
    StoreInv (cleanupCore now store).urls := by
  rw [cleanupCore_urls]
  exact storeInv_map _ (fun u => ⟨trimRecord_shortCode u, trimRecord_customAlias u⟩) _
    (storeInv_filter _ _ h)

theorem storeInv_save (fuel : Nat) (now : Int) (cap : Nat) :
    ∀ urls store : List Record, StoreInv urls → StoreInv store →
      StoreInv (saveUrlsAux fuel now cap urls store).1 := by
  induction fuel with
  | zero => exact fun _ _ _ hs => hs
  | succ n ih =>
    intro urls store hu hs
    simp only [saveUrlsAux]
    split
    · exact hu
    · split
      · exact ih _ _ (storeInv_cleanup now store hs) hs
      · exact hs

theorem tryCodes_some_unique (gen : Nat → Nat → String) (store : List Record) (len : Nat) :
    ∀ (n start : Nat) (code : String),
      tryCodes gen store len start n = some code → isShortCodeUnique code store = true := by
  intro n
  induction n with
  | zero =>
    intro start code h
    exact absurd h (by simp [tryCodes])
  | succ m ih =>
    intro start code h
    simp only [tryCodes] at h
    split at h
    · cases h
      assumption
    · exact ih _ _ h

theorem generate_some_unique (gen : Nat → Nat → String) (store : List Record)
    (maxRetries : Nat) (code : String)
    (h : generateUniqueShortCode gen store maxRetries = some code) :
    isShortCodeUnique code store = true := by
  unfold generateUniqueShortCode at h
  cases h7 : tryCodes gen store 7 0 maxRetries with
  | some c =>
    rw [h7] at h
    cases h
    exact tryCodes_some_unique gen store 7 maxRetries 0 code h7
  | none =>
    rw [h7] at h
    cases h9 : tryCodes gen store 9 maxRetries 3 with
    | some c =>
      rw [h9] at h
      cases h
      exact tryCodes_some_unique gen store 9 3 maxRetries code h9
    | none =>
      rw [h9] at h
      exact tryCodes_some_unique gen store 11 2 (maxRetries + 3) code h

theorem mkShortened_alias_consistent (inp : CreateInput) (code : String)
    (al : Option String) (hal : ∀ a, al = some a → a ≠ "" → a = code) :
    ∀ a, (mkShortened inp code al).customAlias = some a → a ≠ ""
      → a = (mkShortened inp code al).shortCode :=
  fun a ha hne => hal a ha hne

theorem handleSubmitCreate_out (now : Int) (cap : Nat) (gen : Nat → Nat → String)
    (inp : CreateInput) (store out ret : List Record)
    (h : handleSubmitCreate now cap gen inp store = some (out, ret)) :
    ∃ r : Record, isShortCodeUnique r.shortCode store = true
      ∧ (∀ a, r.customAlias = some a → a ≠ "" → a = r.shortCode)
      ∧ out = (saveUrls now cap (r :: store) store).1 := by
  simp only [handleSubmitCreate] at h
  split at h
  · split at h
    · exact absurd h (by simp)
    · split at h
      · exact absurd h (by simp)
      · rename_i hcond hvalid htaken
        refine ⟨mkShortened inp (jsTrim inp.customAlias) (some (jsTrim inp.customAlias)),
          ?_, ?_, ?_⟩
        · simpa using htaken
        · refine mkShortened_alias_consistent inp _ _ ?_
          intro a ha _
          simpa using ha.symm
        · simp only [addUrl, Option.some.injEq, Prod.mk.injEq] at h
          exact h.1.symm
  · rename_i hcond
    cases hg : generateUniqueShortCode gen store 5 with
    | none =>
      rw [hg] at h
      exact absurd h (by simp)
    | some code =>
      rw [hg] at h
      refine ⟨mkShortened inp code
        (if inp.useCustomAlias then some (jsTrim inp.customAlias) else none), ?_, ?_, ?_⟩
      · exact generate_some_unique gen store 5 code hg
      · refine mkShortened_alias_consistent inp _ _ ?_
        intro a ha hne
        split at ha
        · rename_i huse
          exfalso
          apply hcond
          simp only [huse, Bool.true_and]
          have h2 : jsTrim inp.customAlias = a := by simpa using ha
          rw [h2]
          have h3 : a.isEmpty = false := by
            cases he : a.isEmpty
            · rfl
            · exact absurd ((String.isEmpty_iff _).mp he) hne
          simp [h3]
        · exact absurd ha (by simp)
      · simp only [addUrl, Option.some.injEq, Prod.mk.injEq] at h
        exact h.1.symm

theorem storeInv_cons (r : Record) (store : List Record) (hinv : StoreInv store)
    (hal : ∀ a, r.customAlias = some a → a ≠ "" → a = r.shortCode)
    (hu : isShortCodeUnique r.shortCode store = true) :
    StoreInv (r :: store) := by
  constructor
  · rw [List.pairwise_cons]
    refine ⟨?_, hinv.1⟩
    intro u hu' k hk
    have hks := mem_keys_eq r hal k hk
    rw [hks]
    exact unique_not_mem_keys r.shortCode store hinv.2 hu u hu'
  · intro u hu' a ha hne
    rcases List.mem_cons.mp hu' with h | h
    · subst h
      exact hal a ha hne
    · exact hinv.2 u h a ha hne

theorem storeInv_step (s t : List Record) (hst : Step s t) (h : StoreInv s) :
    StoreInv t := by
  cases hst with
  | create now cap gen inp store out ret hc =>
    obtain ⟨r, hu, hal, rfl⟩ := handleSubmitCreate_out now cap gen inp s t ret hc
    exact storeInv_save 3 now cap _ _ (storeInv_cons r s h hal hu) h
  | del now cap id =>
    exact storeInv_save 3 now cap _ _ (storeInv_filter _ _ h) h
  | bulkDel now cap ids =>
    exact storeInv_save 3 now cap _ _ (storeInv_filter _ _ h) h
  | visit now cap id ev =>
    refine storeInv_save 3 now cap _ _ ?_ h
    refine storeInv_map _ ?_ _ h
    intro u
    constructor
    · by_cases hid : u.id = id
      · simp [hid]
      · simp [hid]
    · by_cases hid : u.id = id
      · simp [hid]
      · simp [hid]
  | sweep now cap =>
    simp only [cleanupExpiredUrls]
    split
    · exact storeInv_save 3 now cap _ _ (storeInv_cleanup now s h) h
    · exact h

/-- C1: in every store state reachable from the empty store through the public
operations — creation with a generated code, creation with a custom alias
(including the forced-duplicate resubmission, which runs the same code
checks), deletion, bulk deletion, visit recording, and the lifecycle sweep —
no two records share a code/alias key, compared case-sensitively: the alias
path accepts only aliases passing `isShortCodeUnique`, the generated path
accepts only codes passing `isShortCodeUnique`, and the remaining operations
never add keys. -/
theorem c1_unique_codes (store : List Record) (h : Reachable store) :
    store.Pairwise KeysDisjoint := by
  have hinv : StoreInv store := by
    unfold Reachable at h
    induction h with
    | refl => exact ⟨List.Pairwise.nil, fun r hr => absurd hr (List.not_mem_nil r)⟩
    | tail hab hbc ih => exact storeInv_step _ _ hbc ih
  exact hinv.1



/-- Witness for C1: the store reached by one alias creation from the empty
store satisfies the pairwise key-disjointness invariant. -/
theorem c1_unique_codes_witness : List.Pairwise KeysDisjoint [recAliasW] :=
  c1_unique_codes [recAliasW]
    (Relation.ReflTransGen.single
      (Step.create 0 5 genConst inpAlias [] [recAliasW] [recAliasW] (by decide)))

/-! ## Character-level lemmas for the normalizer proofs -/

theorem toNat_ofNat_valid {n : Nat} (h : n.isValidChar) : (Char.ofNat n).toNat = n := by
  simp only [Char.ofNat, dif_pos h, Char.ofNatAux, Char.toNat]
  rfl

theorem char_eq_iff_toNat {c d : Char} : c = d ↔ c.toNat = d.toNat := by
  constructor
  · intro h
    rw [h]
  · intro h
    exact Char.eq_of_val_eq (UInt32.ext h)

theorem toLower_of_upper {c : Char} (h : 65 ≤ c.toNat ∧ c.toNat ≤ 90) :
    (Char.toLower c).toNat = c.toNat + 32 := by
  have hv : (c.toNat + 32).isValidChar := by
    left
    have := h.2
    omega
  simp only [Char.toLower, if_pos h]
  exact toNat_ofNat_valid hv

theorem toLower_of_not_upper {c : Char} (h : ¬ (65 ≤ c.toNat ∧ c.toNat ≤ 90)) :
    Char.toLower c = c := by
  simp only [Char.toLower, if_neg h]

theorem toLower_idem (c : Char) : Char.toLower (Char.toLower c) = Char.toLower c := by
  by_cases h : 65 ≤ c.toNat ∧ c.toNat ≤ 90
  · have h1 := toLower_of_upper h
    apply toLower_of_not_upper
    rw [h1]
    omega
  · simp only [toLower_of_not_upper h]

theorem toLower_eq_iff {c d : Char} (hd1 : ¬ (65 ≤ d.toNat ∧ d.toNat ≤ 90))
    (hd2 : ¬ (97 ≤ d.toNat ∧ d.toNat ≤ 122)) :
    (Char.toLower c = d) ↔ c = d := by
  by_cases h : 65 ≤ c.toNat ∧ c.toNat ≤ 90
  · have h1 := toLower_of_upper h
    constructor
    · intro he
      exfalso
      apply hd2
      constructor
      · rw [← he, h1]
        omega
      · rw [← he, h1]
        omega
    · intro he
      subst he
      exact absurd h hd1
  · rw [toLower_of_not_upper h]

theorem toLower_beq_sep {d : Char} (hd1 : ¬ (65 ≤ d.toNat ∧ d.toNat ≤ 90))
    (hd2 : ¬ (97 ≤ d.toNat ∧ d.toNat ≤ 122)) (c : Char) :
    (Char.toLower c == d) = (c == d) := by
  by_cases h : c = d
  · subst h
    have hl : Char.toLower c = c := (toLower_eq_iff hd1 hd2).mpr rfl
    simp [hl]
  · have h2 : ¬ (Char.toLower c = d) := fun he => h ((toLower_eq_iff hd1 hd2).mp he)
    simp [h, h2]

theorem char_ne_of_toNat_ne {c d : Char} (h : c.toNat ≠ d.toNat) : c ≠ d :=
  fun he => h (char_eq_iff_toNat.mp he)

theorem char_ne_lit {c d : Char} {n : Nat} (hd : d.toNat = n) (h : c.toNat ≠ n) : c ≠ d :=
  char_ne_of_toNat_ne (by rw [hd]; exact h)

theorem isWsChar_toLower (c : Char) : isWsChar (Char.toLower c) = isWsChar c := by
  unfold isWsChar
  rw [toLower_beq_sep (by decide) (by decide) c, toLower_beq_sep (by decide) (by decide) c,
    toLower_beq_sep (by decide) (by decide) c, toLower_beq_sep (by decide) (by decide) c]

theorem isDigitB_toLower (c : Char) : isDigitB (Char.toLower c) = isDigitB c := by
  unfold isDigitB
  by_cases h : 65 ≤ c.toNat ∧ c.toNat ≤ 90
  · have h1 := toLower_of_upper h
    rw [h1]
    exact decide_eq_decide.mpr (by omega)
  · rw [toLower_of_not_upper h]

theorem isSchemeCharB_toLower (c : Char) :
    isSchemeCharB (Char.toLower c) = isSchemeCharB c := by
  by_cases h : 65 ≤ c.toNat ∧ c.toNat ≤ 90
  · have h1 := toLower_of_upper h
    have hc : isSchemeCharB c = true := by
      unfold isSchemeCharB
      have hd : decide (65 ≤ c.toNat ∧ c.toNat ≤ 90) = true := decide_eq_true h
      simp [hd]
    have hl : isSchemeCharB (Char.toLower c) = true := by
      unfold isSchemeCharB
      have hd : decide (97 ≤ (Char.toLower c).toNat ∧ (Char.toLower c).toNat ≤ 122) = true :=
        decide_eq_true (by omega)
      simp [hd]
    rw [hc, hl]
  · rw [toLower_of_not_upper h]

theorem isWsChar_false_of (c : Char)
    (h : c.toNat ≠ 32 ∧ c.toNat ≠ 9 ∧ c.toNat ≠ 10 ∧ c.toNat ≠ 13) :
    isWsChar c = false := by
  unfold isWsChar
  have e1 : (c == ' ') = false := beq_eq_false_iff_ne.mpr (char_ne_lit (by decide) h.1)
  have e2 : (c == '\t') = false := beq_eq_false_iff_ne.mpr (char_ne_lit (by decide) h.2.1)
  have e3 : (c == '\n') = false := beq_eq_false_iff_ne.mpr (char_ne_lit (by decide) h.2.2.1)
  have e4 : (c == '\r') = false := beq_eq_false_iff_ne.mpr (char_ne_lit (by decide) h.2.2.2)
  rw [e1, e2, e3, e4]
  rfl

theorem schemeChar_toNat {c : Char} (h : isSchemeCharB c = true) :
    (65 ≤ c.toNat ∧ c.toNat ≤ 90) ∨ (97 ≤ c.toNat ∧ c.toNat ≤ 122)
      ∨ (48 ≤ c.toNat ∧ c.toNat ≤ 57) ∨ c.toNat = 43 ∨ c.toNat = 45 ∨ c.toNat = 46 := by
  unfold isSchemeCharB isDigitB at h
  simp only [Bool.or_eq_true, decide_eq_true_eq, beq_iff_eq] at h
  rcases h with ((((h | h) | h) | h) | h) | h
  · exact Or.inl h
  · exact Or.inr (Or.inl h)
  · exact Or.inr (Or.inr (Or.inl h))
  · refine Or.inr (Or.inr (Or.inr (Or.inl ?_)))
    rw [char_eq_iff_toNat] at h
    rw [h]
    decide
  · refine Or.inr (Or.inr (Or.inr (Or.inr (Or.inl ?_))))
    rw [char_eq_iff_toNat] at h
    rw [h]
    decide
  · refine Or.inr (Or.inr (Or.inr (Or.inr (Or.inr ?_))))
    rw [char_eq_iff_toNat] at h
    rw [h]
    decide

theorem schemeChar_not_ws {c : Char} (h : isSchemeCharB c = true) : isWsChar c = false := by
  have hr := schemeChar_toNat h
  have h43 : 43 ≤ c.toNat := by
    rcases hr with h | h | h | h | h | h <;> omega
  exact isWsChar_false_of c ⟨by omega, by omega, by omega, by omega⟩

theorem schemeChar_ne_colon {c : Char} (h : isSchemeCharB c = true) : c ≠ ':' := by
  have hr := schemeChar_toNat h
  refine char_ne_lit (show (':' : Char).toNat = 58 by decide) ?_
  rcases hr with h | h | h | h | h | h <;> omega

theorem digit_facts {c : Char} (h : isDigitB c = true) :
    c ≠ ':' ∧ c ≠ '/' ∧ c ≠ '?' ∧ c ≠ '#' ∧ c ≠ '&' ∧ c ≠ '=' ∧ isWsChar c = false := by
  unfold isDigitB at h
  simp only [decide_eq_true_eq] at h
  refine ⟨char_ne_lit (show (':' : Char).toNat = 58 by decide) (by omega),
    char_ne_lit (show ('/' : Char).toNat = 47 by decide) (by omega),
    char_ne_lit (show ('?' : Char).toNat = 63 by decide) (by omega),
    char_ne_lit (show ('#' : Char).toNat = 35 by decide) (by omega),
    char_ne_lit (show ('&' : Char).toNat = 38 by decide) (by omega),
    char_ne_lit (show ('=' : Char).toNat = 61 by decide) (by omega),
    isWsChar_false_of c ⟨by omega, by omega, by omega, by omega⟩⟩

/-! ## Splitting and joining lemmas -/

theorem splitFirst_of_not_mem (sep : Char) (l : List Char) (h : sep ∉ l) :
    splitFirst sep l = (l, none) := by
  induction l with
  | nil => rfl
  | cons c rest ih =>
    have hc : ¬ (c = sep) := fun he => h (he ▸ List.mem_cons_self c rest)
    simp only [splitFirst, beq_iff_eq, if_neg hc,
      ih (fun hm => h (List.mem_cons_of_mem c hm))]

theorem splitFirst_append (sep : Char) (a b : List Char) (h : sep ∉ a) :
    splitFirst sep (a ++ sep :: b) = (a, some b) := by
  induction a with
  | nil => simp [splitFirst]
  | cons c rest ih =>
    have hc : ¬ (c = sep) := fun he => h (he ▸ List.mem_cons_self c rest)
    simp only [List.cons_append, splitFirst, beq_iff_eq, if_neg hc, List.append_eq,
      ih (fun hm => h (List.mem_cons_of_mem c hm))]

theorem mem_of_splitFirst_fst (sep : Char) (l : List Char) {x : Char}
    (h : x ∈ (splitFirst sep l).1) : x ∈ l := by
  induction l with
  | nil => simp [splitFirst] at h
  | cons c rest ih =>
    by_cases hc : c = sep
    · simp [splitFirst, hc] at h
    · simp only [splitFirst, beq_iff_eq, if_neg hc] at h
      rcases List.mem_cons.mp h with h | h
      · exact h ▸ List.mem_cons_self c rest
      · exact List.mem_cons_of_mem c (ih h)

theorem not_sep_mem_splitFirst_fst (sep : Char) (l : List Char) :
    sep ∉ (splitFirst sep l).1 := by
  induction l with
  | nil => simp [splitFirst]
  | cons c rest ih =>
    by_cases hc : c = sep
    · simp [splitFirst, hc]
    · simp only [splitFirst, beq_iff_eq, if_neg hc]
      intro hm
      rcases List.mem_cons.mp hm with h | h
      · exact hc h.symm
      · exact ih h

theorem mem_of_splitFirst_snd (sep : Char) (l : List Char) {r : List Char}
    (h2 : (splitFirst sep l).2 = some r) {x : Char} (h : x ∈ r) : x ∈ l := by
  induction l with
  | nil => simp [splitFirst] at h2
  | cons c rest ih =>
    by_cases hc : c = sep
    · simp only [splitFirst, beq_iff_eq, if_pos hc, Option.some.injEq] at h2
      exact List.mem_cons_of_mem c (h2 ▸ h)
    · simp only [splitFirst, beq_iff_eq, if_neg hc] at h2
      exact List.mem_cons_of_mem c (ih h2)

theorem splitAll_ne_nil (sep : Char) (l : List Char) : splitAll sep l ≠ [] := by
  induction l with
  | nil => simp [splitAll]
  | cons c rest ih =>
    simp only [splitAll]
    by_cases hc : c = sep
    · simp [hc]
    · simp only [beq_iff_eq, if_neg hc]
      cases hr : splitAll sep rest with
      | nil => simp
      | cons h t => simp

theorem mem_splitAll_not_sep (sep : Char) (l : List Char) :
    ∀ p ∈ splitAll sep l, sep ∉ p := by
  induction l with
  | nil =>
    intro p hp
    simp only [splitAll, List.mem_singleton] at hp
    simp [hp]
  | cons c rest ih =>
    intro p hp
    simp only [splitAll] at hp
    by_cases hc : c = sep
    · rw [if_pos (by simpa using hc)] at hp
      rcases List.mem_cons.mp hp with h | h
      · simp [h]
      · exact ih p h
    · rw [if_neg (by simpa using hc)] at hp
      cases hr : splitAll sep rest with
      | nil => exact absurd hr (splitAll_ne_nil sep rest)
      | cons q t =>
        rw [hr] at hp
        rcases List.mem_cons.mp hp with h | h
        · subst h
          intro hm
          rcases List.mem_cons.mp hm with h | h
          · exact hc h.symm
          · exact ih q (hr ▸ List.mem_cons_self q t) h
        · exact ih p (hr ▸ List.mem_cons_of_mem q h)

theorem mem_splitAll_subset (sep : Char) (l : List Char) :
    ∀ p ∈ splitAll sep l, ∀ x ∈ p, x ∈ l := by
  induction l with
  | nil =>
    intro p hp
    simp only [splitAll, List.mem_singleton] at hp
    simp [hp]
  | cons c rest ih =>
    intro p hp x hx
    simp only [splitAll] at hp
    by_cases hc : c = sep
    · rw [if_pos (by simpa using hc)] at hp
      rcases List.mem_cons.mp hp with h | h
      · subst h
        simp at hx
      · exact List.mem_cons_of_mem c (ih p h x hx)
    · rw [if_neg (by simpa using hc)] at hp
      cases hr : splitAll sep rest with
      | nil => exact absurd hr (splitAll_ne_nil sep rest)
      | cons q t =>
        rw [hr] at hp
        rcases List.mem_cons.mp hp with h | h
        · subst h
          rcases List.mem_cons.mp hx with h | h
          · exact h ▸ List.mem_cons_self c rest
          · exact List.mem_cons_of_mem c (ih q (hr ▸ List.mem_cons_self q t) x h)
        · exact List.mem_cons_of_mem c (ih p (hr ▸ List.mem_cons_of_mem q h) x hx)

theorem splitAll_of_not_mem (sep : Char) (l : List Char) (h : sep ∉ l) :
    splitAll sep l = [l] := by
  induction l with
  | nil => rfl
  | cons c rest ih =>
    have hc : ¬ (c = sep) := fun he => h (he ▸ List.mem_cons_self c rest)
    simp only [splitAll, beq_iff_eq, if_neg hc,
      ih (fun hm => h (List.mem_cons_of_mem c hm))]

theorem splitAll_append_sep (sep : Char) (p tail : List Char) (h : sep ∉ p) :
    splitAll sep (p ++ sep :: tail) = p :: splitAll sep tail := by
  induction p with
  | nil => simp [splitAll]
  | cons c rest ih =>
    have hc : ¬ (c = sep) := fun he => h (he ▸ List.mem_cons_self c rest)
    have ih2 := ih (fun hm => h (List.mem_cons_of_mem c hm))
    simp only [List.cons_append, splitAll, beq_iff_eq, if_neg hc, List.append_eq, ih2]

theorem splitAll_join (sep : Char) (ps : List (List Char)) (hne : ps ≠ [])
    (h : ∀ p ∈ ps, sep ∉ p) : splitAll sep (joinSep sep ps) = ps := by
  induction ps with
  | nil => exact absurd rfl hne
  | cons p ps ih =>
    cases ps with
    | nil =>
      simp only [joinSep]
      exact splitAll_of_not_mem sep p (h p (List.mem_cons_self p []))
    | cons q ps' =>
      have hj : joinSep sep (p :: q :: ps') = p ++ sep :: joinSep sep (q :: ps') := rfl
      rw [hj, splitAll_append_sep sep p _ (h p (List.mem_cons_self p _)),
        ih (by simp) (fun r hr => h r (List.mem_cons_of_mem p hr))]

/-! ## Trim lemmas -/

theorem dropWhile_ws_eq_self {l : List Char} (h : ∀ c rest, l = c :: rest → isWsChar c = false) :
    l.dropWhile isWsChar = l := by
  cases l with
  | nil => rfl
  | cons c rest => rw [List.dropWhile_cons, if_neg (by simp [h c rest rfl])]

theorem trimChars_eq_self (l : List Char) (h : ∀ c ∈ l, isWsChar c = false) :
    trimChars l = l := by
  unfold trimChars
  have h1 : l.dropWhile isWsChar = l := by
    apply dropWhile_ws_eq_self
    intro c rest he
    exact h c (by rw [he]; exact List.mem_cons_self c rest)
  rw [h1]
  have h2 : l.reverse.dropWhile isWsChar = l.reverse := by
    apply dropWhile_ws_eq_self
    intro c rest he
    refine h c ?_
    have hm : c ∈ l.reverse := by
      rw [he]
      exact List.mem_cons_self c rest
    exact List.mem_reverse.mp hm
  rw [h2, List.reverse_reverse]

theorem dropWhile_head_not {p : Char → Bool} :
    ∀ (l : List Char) (c : Char) (rest : List Char),
      l.dropWhile p = c :: rest → p c = false := by
  intro l
  induction l with
  | nil => intro c rest h; simp at h
  | cons a tl ih =>
    intro c rest h
    rw [List.dropWhile_cons] at h
    by_cases ha : p a
    · rw [if_pos (by simpa using ha)] at h
      exact ih c rest h
    · rw [if_neg (by simpa using ha)] at h
      cases h
      simpa using ha

theorem getLast?_dropWhile {p : Char → Bool} :
    ∀ (l : List Char), l.dropWhile p ≠ [] → (l.dropWhile p).getLast? = l.getLast? := by
  intro l
  induction l with
  | nil => intro h; simp at h
  | cons a tl ih =>
    intro h
    rw [List.dropWhile_cons] at h ⊢
    by_cases ha : p a
    · rw [if_pos (by simpa using ha)] at h ⊢
      have htl : tl ≠ [] := by
        intro he
        subst he
        simp at h
      obtain ⟨b, tl', rfl⟩ := List.exists_cons_of_ne_nil htl
      rw [ih h, List.getLast?_cons_cons]
    · rw [if_neg (by simpa using ha)]

theorem trim_head_not_ws (l : List Char) (c : Char) (rest : List Char)
    (h : trimChars l = c :: rest) : isWsChar c = false := by
  unfold trimChars at h
  have hB : ((l.dropWhile isWsChar).reverse.dropWhile isWsChar) = (c :: rest).reverse := by
    rw [← h, List.reverse_reverse]
  have hBne : ((l.dropWhile isWsChar).reverse.dropWhile isWsChar) ≠ [] := by
    rw [hB]
    simp
  have hlast : ((l.dropWhile isWsChar).reverse.dropWhile isWsChar).getLast?
      = (l.dropWhile isWsChar).reverse.getLast? := getLast?_dropWhile _ hBne
  have hc : ((l.dropWhile isWsChar).reverse.dropWhile isWsChar).getLast? = some c := by
    rw [hB, List.getLast?_reverse]
    rfl
  rw [hlast, List.getLast?_reverse] at hc
  obtain ⟨tl, htl⟩ : ∃ tl, l.dropWhile isWsChar = c :: tl := by
    cases hA : l.dropWhile isWsChar with
    | nil =>
      rw [hA] at hc
      simp at hc
    | cons a tl =>
      rw [hA] at hc
      simp only [List.head?_cons, Option.some.injEq] at hc
      exact ⟨tl, by rw [hc]⟩
  exact dropWhile_head_not l c tl htl

theorem trim_last_not_ws (l : List Char) (c : Char)
    (h : (trimChars l).getLast? = some c) : isWsChar c = false := by
  unfold trimChars at h
  rw [List.getLast?_reverse] at h
  cases hB : (l.dropWhile isWsChar).reverse.dropWhile isWsChar with
  | nil =>
    rw [hB] at h
    simp at h
  | cons a tl =>
    rw [hB] at h
    simp only [List.head?_cons, Option.some.injEq] at h
    rw [← h]
    exact dropWhile_head_not _ a tl hB

theorem trimChars_idem (l : List Char) : trimChars (trimChars l) = trimChars l := by
  obtain ⟨m, hm⟩ : ∃ m, trimChars l = m := ⟨_, rfl⟩
  have hh : ∀ c rest, m = c :: rest → isWsChar c = false := by
    intro c rest he
    exact trim_head_not_ws l c rest (by rw [hm, he])
  have hl : ∀ c, m.getLast? = some c → isWsChar c = false := by
    intro c he
    exact trim_last_not_ws l c (by rw [hm, he])
  rw [hm]
  show trimChars m = m
  unfold trimChars
  have h1 : m.dropWhile isWsChar = m := dropWhile_ws_eq_self hh
  rw [h1]
  have h2 : m.reverse.dropWhile isWsChar = m.reverse := by
    apply dropWhile_ws_eq_self
    intro c rest he
    apply hl
    rw [← List.head?_reverse, he]
    rfl
  rw [h2, List.reverse_reverse]

theorem trimChars_map_toLower (l : List Char) :
    trimChars (l.map Char.toLower) = (trimChars l).map Char.toLower := by
  have hpf : (isWsChar ∘ Char.toLower) = isWsChar := funext isWsChar_toLower
  unfold trimChars
  rw [List.dropWhile_map, hpf, ← List.map_reverse, List.dropWhile_map, hpf, ← List.map_reverse]

/-! ## Sorting lemmas -/

theorem lexLe_total (a b : List Char) : lexLe a b = true ∨ lexLe b a = true := by
  induction a generalizing b with
  | nil => left; rfl
  | cons x xs ih =>
    cases b with
    | nil => right; rfl
    | cons y ys =>
      by_cases h1 : x < y
      · left
        simp [lexLe, h1]
      · by_cases h2 : y < x
        · right
          simp [lexLe, h2]
        · rcases ih ys with h | h
          · left
            simp [lexLe, h1, h2, h]
          · right
            simp [lexLe, h1, h2, h]

theorem lexLe_trans {a b c : List Char} (hab : lexLe a b = true) (hbc : lexLe b c = true) :
    lexLe a c = true := by
  induction a generalizing b c with
  | nil => rfl
  | cons x xs ih =>
    cases b with
    | nil => simp [lexLe] at hab
    | cons y ys =>
      cases c with
      | nil => simp [lexLe] at hbc
      | cons z zs =>
        simp only [lexLe] at hab hbc ⊢
        by_cases h1 : x < y
        · by_cases h2 : y < z
          · rw [if_pos (Char.lt_trans h1 h2)]
          · by_cases h3 : z < y
            · rw [if_neg h2, if_pos h3] at hbc
              simp at hbc
            · have hyz : y = z := Char.le_antisymm (Char.not_lt.mp h3) (Char.not_lt.mp h2)
              subst hyz
              rw [if_pos h1]
        · by_cases h1' : y < x
          · rw [if_neg h1, if_pos h1'] at hab
            simp at hab
          · have hxy : x = y := Char.le_antisymm (Char.not_lt.mp h1') (Char.not_lt.mp h1)
            subst hxy
            rw [if_neg h1, if_neg h1'] at hab
            by_cases h2 : x < z
            · rw [if_pos h2]
            · by_cases h3 : z < x
              · rw [if_neg h2, if_pos h3] at hbc
                simp at hbc
              · rw [if_neg h2, if_neg h3] at hbc ⊢
                exact ih hab hbc

theorem mem_insertParam {x y : List Char × List Char} {l : List (List Char × List Char)}
    (h : y ∈ insertParam x l) : y = x ∨ y ∈ l := by
  induction l with
  | nil => simp [insertParam] at h; exact Or.inl h
  | cons z l ih =>
    simp only [insertParam] at h
    by_cases hc : lexLe (sortKey x) (sortKey z) = true
    · rw [if_pos hc] at h
      rcases List.mem_cons.mp h with h | h
      · exact Or.inl h
      · exact Or.inr h
    · rw [if_neg hc] at h
      rcases List.mem_cons.mp h with h | h
      · exact Or.inr (h ▸ List.mem_cons_self z l)
      · rcases ih h with h | h
        · exact Or.inl h
        · exact Or.inr (List.mem_cons_of_mem z h)

theorem mem_sortParams {y : List Char × List Char} {l : List (List Char × List Char)}
    (h : y ∈ sortParams l) : y ∈ l := by
  induction l with
  | nil => simp [sortParams] at h
  | cons x l ih =>
    simp only [sortParams] at h
    rcases mem_insertParam h with h | h
    · exact h ▸ List.mem_cons_self x l
    · exact List.mem_cons_of_mem x (ih h)

theorem insertParam_sorted (x : List Char × List Char) (l : List (List Char × List Char))
    (h : l.Pairwise (fun a b => lexLe (sortKey a) (sortKey b) = true)) :
    (insertParam x l).Pairwise (fun a b => lexLe (sortKey a) (sortKey b) = true) := by
  induction l with
  | nil => simp [insertParam]
  | cons y l ih =>
    simp only [insertParam]
    rcases List.pairwise_cons.mp h with ⟨hy, htl⟩
    by_cases hc : lexLe (sortKey x) (sortKey y) = true
    · rw [if_pos hc]
      refine List.pairwise_cons.mpr ⟨?_, h⟩
      intro z hz
      rcases List.mem_cons.mp hz with h' | h'
      · exact h' ▸ hc
      · exact lexLe_trans hc (hy z h')
    · rw [if_neg hc]
      refine List.pairwise_cons.mpr ⟨?_, ih htl⟩
      intro z hz
      rcases mem_insertParam hz with h' | h'
      · rw [h']
        rcases lexLe_total (sortKey x) (sortKey y) with h'' | h''
        · exact absurd h'' hc
        · exact h''
      · exact hy z h'

theorem sortParams_sorted (l : List (List Char × List Char)) :
    (sortParams l).Pairwise (fun a b => lexLe (sortKey a) (sortKey b) = true) := by
  induction l with
  | nil => simp [sortParams]
  | cons x l ih => exact insertParam_sorted x (sortParams l) ih

theorem sortParams_of_sorted (l : List (List Char × List Char))
    (h : l.Pairwise (fun a b => lexLe (sortKey a) (sortKey b) = true)) :
    sortParams l = l := by
  induction l with
  | nil => rfl
  | cons x l ih =>
    rcases List.pairwise_cons.mp h with ⟨hx, htl⟩
    simp only [sortParams, ih htl]
    cases l with
    | nil => rfl
    | cons y t =>
      simp only [insertParam, if_pos (hx y (List.mem_cons_self y t))]

theorem sortParams_idem (l : List (List Char × List Char)) :
    sortParams (sortParams l) = sortParams l :=
  sortParams_of_sorted _ (sortParams_sorted l)

/-! ## Query parsing facts and roundtrip -/

theorem parseQueryChars_facts (qs : List Char) :
    ∀ kv ∈ parseQueryChars qs,
      ('&' ∉ kv.1 ∧ '=' ∉ kv.1 ∧ '&' ∉ kv.2)
      ∧ (∀ x ∈ kv.1, x ∈ qs) ∧ (∀ x ∈ kv.2, x ∈ qs) := by
  intro kv hkv
  unfold parseQueryChars at hkv
  obtain ⟨piece, hp, hkv2⟩ := List.mem_map.mp hkv
  have hpq : piece ∈ splitAll '&' qs := List.mem_of_mem_filter hp
  have hamp : '&' ∉ piece := mem_splitAll_not_sep '&' qs piece hpq
  have hsub : ∀ x ∈ piece, x ∈ qs := mem_splitAll_subset '&' qs piece hpq
  have hk1 : kv.1 = (splitFirst '=' piece).1 := by rw [← hkv2]
  have hk2 : kv.2 = ((splitFirst '=' piece).2).getD [] := by rw [← hkv2]
  have hsnd : ∀ x ∈ kv.2, x ∈ piece := by
    intro x hx
    rw [hk2] at hx
    cases hs : (splitFirst '=' piece).2 with
    | none =>
      rw [hs] at hx
      simp at hx
    | some r =>
      rw [hs] at hx
      simp only [Option.getD_some] at hx
      exact mem_of_splitFirst_snd '=' piece hs hx
  refine ⟨⟨?_, ?_, ?_⟩, ?_, ?_⟩
  · intro hm
    rw [hk1] at hm
    exact hamp (mem_of_splitFirst_fst '=' piece hm)
  · intro hm
    rw [hk1] at hm
    exact not_sep_mem_splitFirst_fst '=' piece hm
  · intro hm
    exact hamp (hsnd '&' hm)
  · intro x hx
    rw [hk1] at hx
    exact hsub x (mem_of_splitFirst_fst '=' piece hx)
  · intro x hx
    exact hsub x (hsnd x hx)

theorem parseQueryChars_serialize (q : List (List Char × List Char)) (hne : q ≠ [])
    (h : ∀ kv ∈ q, '&' ∉ kv.1 ∧ '=' ∉ kv.1 ∧ '&' ∉ kv.2) :
    parseQueryChars (serializeQuery q) = q := by
  unfold parseQueryChars serializeQuery
  have hpieces : ∀ piece ∈ q.map (fun kv => kv.1 ++ '=' :: kv.2), '&' ∉ piece := by
    intro piece hp
    obtain ⟨kv, hkv, rfl⟩ := List.mem_map.mp hp
    intro hm
    rcases List.mem_append.mp hm with h1 | h1
    · exact (h kv hkv).1 h1
    · rcases List.mem_cons.mp h1 with h2 | h2
      · exact absurd h2 (by decide)
      · exact (h kv hkv).2.2 h2
  rw [splitAll_join '&' _ (by simpa using hne) hpieces]
  have hfil : (q.map (fun kv => kv.1 ++ '=' :: kv.2)).filter (fun piece => !piece.isEmpty)
      = q.map (fun kv => kv.1 ++ '=' :: kv.2) := by
    apply List.filter_eq_self.mpr
    intro piece hp
    obtain ⟨kv, hkv, rfl⟩ := List.mem_map.mp hp
    simp
  rw [hfil, List.map_map]
  have hid : ∀ kv ∈ q,
      ((fun piece =>
        let r := splitFirst '=' piece
        (r.1, r.2.getD [])) ∘ fun kv => kv.1 ++ '=' :: kv.2) kv = kv := by
    intro kv hkv
    simp only [Function.comp]
    rw [splitFirst_append '=' kv.1 kv.2 (h kv hkv).2.1]
    simp
  calc q.map _ = q.map id := List.map_congr_left hid
    _ = q := List.map_id q

theorem parseCore_inv_core (t rest2 : List Char) (po : Option (List Char))
    (hmem_rest2 : ∀ c ∈ rest2, c ∈ t)
    (hsch_ne : (splitFirst ':' t).1.isEmpty = false)
    (hsch_all : (splitFirst ':' t).1.all isSchemeCharB = true)
    (hhost_ne :
      (splitFirst ':' (splitFirst '/' (splitFirst '?' (splitFirst '#' rest2).1).1).1).1.isEmpty
        = false)
    (hpo : ∀ ps, po = some ps → ps ≠ [] ∧ ps.all isDigitB = true) :
    (splitFirst ':' t).1.map Char.toLower ≠ []
  ∧ ((splitFirst ':' t).1.map Char.toLower).all isSchemeCharB = true
  ∧ ((splitFirst ':' t).1.map Char.toLower).map Char.toLower
      = (splitFirst ':' t).1.map Char.toLower
  ∧ (splitFirst ':' (splitFirst '/' (splitFirst '?' (splitFirst '#' rest2).1).1).1).1 ≠ []
  ∧ (∀ c ∈ (splitFirst ':' (splitFirst '/' (splitFirst '?' (splitFirst '#' rest2).1).1).1).1,
      c ∈ t ∧ c ≠ ':' ∧ c ≠ '/' ∧ c ≠ '?' ∧ c ≠ '#')
  ∧ (∀ ps, po = some ps → ps ≠ [] ∧ ps.all isDigitB = true)
  ∧ (∃ pr, (match (splitFirst '/' (splitFirst '?' (splitFirst '#' rest2).1).1).2 with
      | none => ['/'] | some pr => '/' :: pr) = '/' :: pr
      ∧ ∀ c ∈ pr, c ∈ t ∧ c ≠ '?' ∧ c ≠ '#')
  ∧ (∀ kv ∈ (match (splitFirst '?' (splitFirst '#' rest2).1).2 with
      | none => ([] : List (List Char × List Char)) | some qs => parseQueryChars qs),
      (∀ c ∈ kv.1, c ∈ t ∧ c ≠ '&' ∧ c ≠ '=' ∧ c ≠ '#')
      ∧ (∀ c ∈ kv.2, c ∈ t ∧ c ≠ '&' ∧ c ≠ '#')) := by
  have hmem_s1 : ∀ c ∈ (splitFirst '#' rest2).1, c ∈ t := fun c hc =>
    hmem_rest2 c (mem_of_splitFirst_fst '#' rest2 hc)
  have hno_hash_s1 : '#' ∉ (splitFirst '#' rest2).1 :=
    not_sep_mem_splitFirst_fst '#' rest2
  have hmem_s2 : ∀ c ∈ (splitFirst '?' (splitFirst '#' rest2).1).1, c ∈ t :=
    fun c hc => hmem_s1 c (mem_of_splitFirst_fst '?' _ hc)
  have hno_q_s2 : '?' ∉ (splitFirst '?' (splitFirst '#' rest2).1).1 :=
    not_sep_mem_splitFirst_fst '?' _
  have hno_hash_s2 : '#' ∉ (splitFirst '?' (splitFirst '#' rest2).1).1 :=
    fun hm => hno_hash_s1 (mem_of_splitFirst_fst '?' _ hm)
  have hmem_s3 : ∀ c ∈ (splitFirst '/' (splitFirst '?' (splitFirst '#' rest2).1).1).1, c ∈ t :=
    fun c hc => hmem_s2 c (mem_of_splitFirst_fst '/' _ hc)
  have hno_sl_s3 : '/' ∉ (splitFirst '/' (splitFirst '?' (splitFirst '#' rest2).1).1).1 :=
    not_sep_mem_splitFirst_fst '/' _
  have hno_q_s3 : '?' ∉ (splitFirst '/' (splitFirst '?' (splitFirst '#' rest2).1).1).1 :=
    fun hm => hno_q_s2 (mem_of_splitFirst_fst '/' _ hm)
  have hno_hash_s3 : '#' ∉ (splitFirst '/' (splitFirst '?' (splitFirst '#' rest2).1).1).1 :=
    fun hm => hno_hash_s2 (mem_of_splitFirst_fst '/' _ hm)
  have hall2 : (splitFirst ':' t).1.all isSchemeCharB = true := hsch_all
  refine ⟨?_, ?_, ?_, ?_, ?_, hpo, ?_, ?_⟩
  · intro he
    rw [List.map_eq_nil_iff] at he
    rw [he] at hsch_ne
    simp at hsch_ne
  · rw [List.all_map]
    have : (isSchemeCharB ∘ Char.toLower) = isSchemeCharB := funext isSchemeCharB_toLower
    rw [this]
    exact hall2
  · rw [List.map_map]
    have : (Char.toLower ∘ Char.toLower) = Char.toLower := funext toLower_idem
    rw [this]
  · intro he
    rw [he] at hhost_ne
    simp at hhost_ne
  · intro c hc
    have hc2 := mem_of_splitFirst_fst ':' _ hc
    refine ⟨hmem_s3 c hc2, ?_, ?_, ?_, ?_⟩
    · intro he
      rw [he] at hc
      exact not_sep_mem_splitFirst_fst ':' _ hc
    · intro he
      rw [he] at hc2
      exact hno_sl_s3 hc2
    · intro he
      rw [he] at hc2
      exact hno_q_s3 hc2
    · intro he
      rw [he] at hc2
      exact hno_hash_s3 hc2
  · cases hsp : (splitFirst '/' (splitFirst '?' (splitFirst '#' rest2).1).1).2 with
    | none =>
      refine ⟨[], rfl, ?_⟩
      intro c hc
      simp at hc
    | some pr =>
      refine ⟨pr, rfl, ?_⟩
      intro c hc
      have hcs2 : c ∈ (splitFirst '?' (splitFirst '#' rest2).1).1 :=
        mem_of_splitFirst_snd '/' _ hsp hc
      refine ⟨hmem_s2 c hcs2, ?_, ?_⟩
      · intro he
        rw [he] at hcs2
        exact hno_q_s2 hcs2
      · intro he
        rw [he] at hcs2
        exact hno_hash_s2 hcs2
  · cases hsq : (splitFirst '?' (splitFirst '#' rest2).1).2 with
    | none =>
      intro kv hkv
      simp at hkv
    | some qs =>
      intro kv hkv
      have hqs_mem : ∀ c ∈ qs, c ∈ (splitFirst '#' rest2).1 :=
        fun c hc => mem_of_splitFirst_snd '?' _ hsq hc
      have hfacts := parseQueryChars_facts qs kv hkv
      refine ⟨?_, ?_⟩
      · intro c hc
        have hcq : c ∈ qs := hfacts.2.1 c hc
        have hcz := hqs_mem c hcq
        refine ⟨hmem_s1 c hcz, ?_, ?_, ?_⟩
        · intro he
          rw [he] at hc
          exact hfacts.1.1 hc
        · intro he
          rw [he] at hc
          exact hfacts.1.2.1 hc
        · intro he
          rw [he] at hcz
          exact hno_hash_s1 hcz
      · intro c hc
        have hcq : c ∈ qs := hfacts.2.2 c hc
        have hcz := hqs_mem c hcq
        refine ⟨hmem_s1 c hcz, ?_, ?_⟩
        · intro he
          rw [he] at hc
          exact hfacts.1.2.2 hc
        · intro he
          rw [he] at hcz
          exact hno_hash_s1 hcz

theorem parseCore_inv (t : List Char) (p : UrlParts) (h : parseCore t = some p) :
    p.scheme ≠ []
  ∧ p.scheme.all isSchemeCharB = true
  ∧ p.scheme.map Char.toLower = p.scheme
  ∧ p.host ≠ []
  ∧ (∀ c ∈ p.host, c ∈ t ∧ c ≠ ':' ∧ c ≠ '/' ∧ c ≠ '?' ∧ c ≠ '#')
  ∧ (∀ ps, p.port = some ps → ps ≠ [] ∧ ps.all isDigitB = true)
  ∧ (∃ pr, p.path = '/' :: pr ∧ ∀ c ∈ pr, c ∈ t ∧ c ≠ '?' ∧ c ≠ '#')
  ∧ (∀ kv ∈ p.query,
      (∀ c ∈ kv.1, c ∈ t ∧ c ≠ '&' ∧ c ≠ '=' ∧ c ≠ '#')
      ∧ (∀ c ∈ kv.2, c ∈ t ∧ c ≠ '&' ∧ c ≠ '#')) := by
  simp only [parseCore] at h
  split at h
  · exact absurd h (by simp)
  · rename_i rest hrest
    split at h
    · exact absurd h (by simp)
    · split at h
      · exact absurd h (by simp)
      · rename_i hne hall
        have hmem_rest : ∀ c ∈ rest, c ∈ t := fun c hc =>
          mem_of_splitFirst_snd ':' t hrest hc
        have hsch_ne : (splitFirst ':' t).1.isEmpty = false := by
          cases he : (splitFirst ':' t).1.isEmpty
          · rfl
          · exact absurd he hne
        have hsch_all : (splitFirst ':' t).1.all isSchemeCharB = true := by
          cases he : (splitFirst ':' t).1.all isSchemeCharB
          · rw [he] at hall
            simp at hall
          · rfl
        split at h
        · rename_i rest2
          have hmem_rest2 : ∀ c ∈ rest2, c ∈ t := by
            intro c hc
            exact hmem_rest c (List.mem_cons_of_mem _ (List.mem_cons_of_mem _ hc))
          split at h
          · exact absurd h (by simp)
          · rename_i hhne
            have hhost_ne :
                (splitFirst ':'
                  (splitFirst '/' (splitFirst '?' (splitFirst '#' rest2).1).1).1).1.isEmpty
                  = false := by
              cases he : (splitFirst ':'
                  (splitFirst '/' (splitFirst '?' (splitFirst '#' rest2).1).1).1).1.isEmpty
              · rfl
              · exact absurd he hhne
            split at h
            · rw [Option.some.injEq] at h
              subst h
              exact parseCore_inv_core t rest2 none hmem_rest2 hsch_ne hsch_all hhost_ne
                (fun ps hps => by simp at hps)
            · rename_i ps hps
              split at h
              · rename_i hempty
                rw [Option.some.injEq] at h
                subst h
                exact parseCore_inv_core t rest2 none hmem_rest2 hsch_ne hsch_all hhost_ne
                  (fun ps hps => by simp at hps)
              · split at h
                · rename_i hdig
                  rw [Option.some.injEq] at h
                  subst h
                  refine parseCore_inv_core t rest2 (some ps) hmem_rest2 hsch_ne hsch_all
                    hhost_ne ?_
                  intro ps2 hps2
                  rw [Option.some.injEq] at hps2
                  subst hps2
                  constructor
                  · rename_i hempty
                    intro he
                    rw [he] at hempty
                    simp at hempty
                  · exact hdig
                · exact absurd h (by simp)
        · exact absurd h (by simp)

theorem isEmpty_false_of_ne_nil {l : List Char} (h : l ≠ []) : l.isEmpty = false := by
  cases l with
  | nil => exact absurd rfl h
  | cons c rest => rfl

theorem mem_joinSep {sep : Char} {ps : List (List Char)} {c : Char}
    (h : c ∈ joinSep sep ps) : c = sep ∨ ∃ q ∈ ps, c ∈ q := by
  induction ps with
  | nil => simp [joinSep] at h
  | cons q ps ih =>
    cases ps with
    | nil =>
      refine Or.inr ⟨q, by simp, ?_⟩
      simpa [joinSep] using h
    | cons r ps' =>
      have hj : joinSep sep (q :: r :: ps') = q ++ sep :: joinSep sep (r :: ps') := rfl
      rw [hj] at h
      rcases List.mem_append.mp h with h1 | h1
      · exact Or.inr ⟨q, List.mem_cons_self q _, h1⟩
      · rcases List.mem_cons.mp h1 with h2 | h2
        · exact Or.inl h2
        · rcases ih h2 with h3 | ⟨w, hw, hcw⟩
          · exact Or.inl h3
          · exact Or.inr ⟨w, List.mem_cons_of_mem q hw, hcw⟩

theorem mem_serializeQuery {q : List (List Char × List Char)} {c : Char}
    (h : c ∈ serializeQuery q) : c = '&' ∨ c = '=' ∨ ∃ kv ∈ q, c ∈ kv.1 ∨ c ∈ kv.2 := by
  unfold serializeQuery at h
  rcases mem_joinSep h with h1 | ⟨piece, hp, hcp⟩
  · exact Or.inl h1
  · obtain ⟨kv, hkv, rfl⟩ := List.mem_map.mp hp
    rcases List.mem_append.mp hcp with h2 | h2
    · exact Or.inr (Or.inr ⟨kv, hkv, Or.inl h2⟩)
    · rcases List.mem_cons.mp h2 with h3 | h3
      · exact Or.inr (Or.inl h3)
      · exact Or.inr (Or.inr ⟨kv, hkv, Or.inr h3⟩)

theorem serializeUrl_no_ws (p : UrlParts) (hc : Canon p) :
    ∀ c ∈ serializeUrl p, isWsChar c = false := by
  intro c hmem
  unfold serializeUrl at hmem
  rw [hc.frag_none] at hmem
  simp only [List.append_assoc, List.cons_append, List.append_nil, List.mem_append,
    List.mem_cons] at hmem
  rcases hmem with h | h | h | h | h
  · exact schemeChar_not_ws (List.all_eq_true.mp hc.scheme_ok c h)
  · rw [h]
    rfl
  · rw [h]
    rfl
  · rw [h]
    rfl
  · rcases h with h | h | h | h
    · exact (hc.host_ok c h).2.2.2.2
    · cases hpo : p.port with
      | none =>
        rw [hpo] at h
        simp at h
      | some ps =>
        rw [hpo] at h
        rcases List.mem_cons.mp h with h | h
        · rw [h]
          rfl
        · exact (digit_facts (List.all_eq_true.mp (hc.port_ok ps hpo).2 c h)).2.2.2.2.2.2
    · exact (hc.path_ok c h).2.2
    · cases hq : p.query with
      | nil =>
        rw [hq] at h
        simp at h
      | cons kv q' =>
        rw [hq] at h
        rcases List.mem_cons.mp h with h | h
        · rw [h]
          rfl
        · rcases mem_serializeQuery h with h | h | ⟨kv2, hkv2, h⟩
          · rw [h]
            rfl
          · rw [h]
            rfl
          · have hkv2' : kv2 ∈ p.query := by
              rw [hq]
              exact hkv2
            rcases h with h | h
            · exact ((hc.query_ok kv2 hkv2').1 c h).2.2.2
            · exact ((hc.query_ok kv2 hkv2').2 c h).2.2

theorem mem_stripTrailingSlash {q : List Char} {c : Char}
    (h : c ∈ stripTrailingSlash q) : c ∈ q := by
  unfold stripTrailingSlash at h
  split at h
  · exact (List.dropLast_sublist q).subset h
  · exact h

theorem stripTrailingSlash_shape (pr : List Char) :
    ∃ pr2, stripTrailingSlash ('/' :: pr) = '/' :: pr2 := by
  unfold stripTrailingSlash
  cases pr with
  | nil => exact ⟨[], rfl⟩
  | cons x xs =>
    split
    · exact ⟨(x :: xs).dropLast, rfl⟩
    · exact ⟨x :: xs, rfl⟩

theorem canon_of_parse (l : List Char) (p : UrlParts) (h : parseUrl l = some p) :
    Canon (normalizeParts p) := by
  simp only [parseUrl] at h
  by_cases hw : (trimChars l).any isWsChar = true
  · rw [if_pos hw] at h
    exact absurd h (by simp)
  · rw [if_neg hw] at h
    have hws : ∀ c ∈ trimChars l, isWsChar c = false := by
      intro c hcm
      have hany : (trimChars l).any isWsChar = false := Bool.eq_false_iff.mpr hw
      exact Bool.eq_false_iff.mpr (List.any_eq_false.mp hany c hcm)
    obtain ⟨h1, h2, h3, h4, h5, h6, h7, h8⟩ := parseCore_inv _ p h
    refine ⟨?_, ?_, ?_, ?_, ?_, ?_, ?_, ?_, ?_, rfl⟩
    · exact h1
    · exact h2
    · exact h3
    · show p.host.map Char.toLower ≠ []
      intro he
      rw [List.map_eq_nil_iff] at he
      exact h4 he
    · show ∀ c ∈ p.host.map Char.toLower, _
      intro c hcm
      obtain ⟨c0, hc0, rfl⟩ := List.mem_map.mp hcm
      obtain ⟨hmt, hcol, hsl, hq, hh⟩ := h5 c0 hc0
      refine ⟨?_, ?_, ?_, ?_, ?_⟩
      · intro he
        exact hcol ((toLower_eq_iff (by decide) (by decide)).mp he)
      · intro he
        exact hsl ((toLower_eq_iff (by decide) (by decide)).mp he)
      · intro he
        exact hq ((toLower_eq_iff (by decide) (by decide)).mp he)
      · intro he
        exact hh ((toLower_eq_iff (by decide) (by decide)).mp he)
      · rw [isWsChar_toLower]
        exact hws c0 hmt
    · show ∀ ps, (if isDefaultPort p.scheme p.port then none else p.port) = some ps → _
      intro ps hps
      by_cases hd : isDefaultPort p.scheme p.port
      · rw [if_pos hd] at hps
        simp at hps
      · rw [if_neg hd] at hps
        exact h6 ps hps
    · show ∃ pr2, stripTrailingSlash p.path = '/' :: pr2
      obtain ⟨pr, hpath, _⟩ := h7
      rw [hpath]
      exact stripTrailingSlash_shape pr
    · show ∀ c ∈ stripTrailingSlash p.path, _
      intro c hcm
      have hcp := mem_stripTrailingSlash hcm
      obtain ⟨pr, hpath, hpr⟩ := h7
      rw [hpath] at hcp
      rcases List.mem_cons.mp hcp with hc | hc
      · subst hc
        exact ⟨by decide, by decide, by decide⟩
      · obtain ⟨hmt, hq, hh⟩ := hpr c hc
        exact ⟨hq, hh, hws c hmt⟩
    · show ∀ kv ∈ sortParams p.query, _
      intro kv hkv
      have hkv0 := mem_sortParams hkv
      obtain ⟨hk1, hk2⟩ := h8 kv hkv0
      constructor
      · intro c hcm
        obtain ⟨hmt, ha, he, hh⟩ := hk1 c hcm
        exact ⟨ha, he, hh, hws c hmt⟩
      · intro c hcm
        obtain ⟨hmt, ha, hh⟩ := hk2 c hcm
        exact ⟨ha, hh, hws c hmt⟩

theorem parseCore_serialize (p : UrlParts) (hc : Canon p) :
    parseCore (serializeUrl p) = some p := by
  obtain ⟨sch, host, po, path, q, frag⟩ := p
  obtain ⟨hsne, hsok, hslow, hhne, hhok, hpok, ⟨pr, hpath⟩, hpathok, hqok, hfrag⟩ := hc
  subst hpath
  subst hfrag
  have hns : ':' ∉ sch := fun hm => schemeChar_ne_colon (List.all_eq_true.mp hsok _ hm) rfl
  have hse : sch.isEmpty = false := isEmpty_false_of_ne_nil hsne
  have hhe : host.isEmpty = false := isEmpty_false_of_ne_nil hhne
  have hhc : ':' ∉ host := fun hm => ((hhok _ hm).1) rfl
  have hhs : '/' ∉ host := fun hm => ((hhok _ hm).2.1) rfl
  have hhq : '?' ∉ host := fun hm => ((hhok _ hm).2.2.1) rfl
  have hhh : '#' ∉ host := fun hm => ((hhok _ hm).2.2.2.1) rfl
  have hprq : '?' ∉ pr := fun hm => ((hpathok _ (List.mem_cons_of_mem _ hm)).1) rfl
  have hprh : '#' ∉ pr := fun hm => ((hpathok _ (List.mem_cons_of_mem _ hm)).2.1) rfl
  cases po with
  | none =>
    cases q with
    | nil =>
      have hnh : '#' ∉ host ++ '/' :: pr := by
        intro hm
        rcases List.mem_append.mp hm with h1 | h1
        · exact hhh h1
        · rcases List.mem_cons.mp h1 with h2 | h2
          · exact absurd h2 (by decide)
          · exact hprh h2
      have hnq : '?' ∉ host ++ '/' :: pr := by
        intro hm
        rcases List.mem_append.mp hm with h1 | h1
        · exact hhq h1
        · rcases List.mem_cons.mp h1 with h2 | h2
          · exact absurd h2 (by decide)
          · exact hprq h2
      have ht : serializeUrl ⟨sch, host, none, '/' :: pr, [], none⟩
          = sch ++ ':' :: '/' :: '/' :: (host ++ '/' :: pr) := by
        simp [serializeUrl]
      have hs0 : splitFirst ':' (sch ++ ':' :: '/' :: '/' :: (host ++ '/' :: pr))
          = (sch, some ('/' :: '/' :: (host ++ '/' :: pr))) :=
        splitFirst_append ':' sch _ hns
      have hs1 : splitFirst '#' (host ++ '/' :: pr) = (host ++ '/' :: pr, none) :=
        splitFirst_of_not_mem '#' _ hnh
      have hs2 : splitFirst '?' (host ++ '/' :: pr) = (host ++ '/' :: pr, none) :=
        splitFirst_of_not_mem '?' _ hnq
      have hs3 : splitFirst '/' (host ++ '/' :: pr) = (host, some pr) :=
        splitFirst_append '/' host pr hhs
      have hs4 : splitFirst ':' host = (host, none) :=
        splitFirst_of_not_mem ':' _ hhc
      rw [ht]
      simp only [parseCore, hs0, hs1, hs2, hs3, hs4, hse, hsok, hhe, hslow,
        Bool.not_true, Bool.false_eq_true, if_false]
    | cons kv q2 =>
      have hqsep : ∀ kv2 ∈ kv :: q2, '&' ∉ kv2.1 ∧ '=' ∉ kv2.1 ∧ '&' ∉ kv2.2 := by
        intro kv2 hm
        exact ⟨fun hx => ((hqok kv2 hm).1 _ hx).1 rfl,
          fun hx => ((hqok kv2 hm).1 _ hx).2.1 rfl,
          fun hx => ((hqok kv2 hm).2 _ hx).1 rfl⟩
      have hsqh : '#' ∉ serializeQuery (kv :: q2) := by
        intro hm
        rcases mem_serializeQuery hm with h1 | h1 | ⟨kv2, hkv2, h1 | h1⟩
        · exact absurd h1 (by decide)
        · exact absurd h1 (by decide)
        · exact ((hqok kv2 hkv2).1 _ h1).2.2.1 rfl
        · exact ((hqok kv2 hkv2).2 _ h1).2.1 rfl
      have hnh : '#' ∉ host ++ '/' :: (pr ++ '?' :: serializeQuery (kv :: q2)) := by
        intro hm
        simp only [List.mem_append, List.mem_cons] at hm
        rcases hm with h1 | h1 | h1 | h1 | h1
        · exact hhh h1
        · exact absurd h1 (by decide)
        · exact hprh h1
        · exact absurd h1 (by decide)
        · exact hsqh h1
      have hnq : '?' ∉ host ++ '/' :: pr := by
        intro hm
        rcases List.mem_append.mp hm with h1 | h1
        · exact hhq h1
        · rcases List.mem_cons.mp h1 with h2 | h2
          · exact absurd h2 (by decide)
          · exact hprq h2
      have ht : serializeUrl ⟨sch, host, none, '/' :: pr, kv :: q2, none⟩
          = sch ++ ':' :: '/' :: '/' ::
              (host ++ '/' :: (pr ++ '?' :: serializeQuery (kv :: q2))) := by
        simp [serializeUrl]
      have hs0 : splitFirst ':'
            (sch ++ ':' :: '/' :: '/' ::
              (host ++ '/' :: (pr ++ '?' :: serializeQuery (kv :: q2))))
          = (sch, some ('/' :: '/' ::
              (host ++ '/' :: (pr ++ '?' :: serializeQuery (kv :: q2))))) :=
        splitFirst_append ':' sch _ hns
      have hs1 : splitFirst '#' (host ++ '/' :: (pr ++ '?' :: serializeQuery (kv :: q2)))
          = (host ++ '/' :: (pr ++ '?' :: serializeQuery (kv :: q2)), none) :=
        splitFirst_of_not_mem '#' _ hnh
      have hs2 : splitFirst '?' (host ++ '/' :: (pr ++ '?' :: serializeQuery (kv :: q2)))
          = (host ++ '/' :: pr, some (serializeQuery (kv :: q2))) := by
        have h := splitFirst_append '?' (host ++ '/' :: pr) (serializeQuery (kv :: q2)) hnq
        simp only [List.append_assoc, List.cons_append] at h
        exact h
      have hs3 : splitFirst '/' (host ++ '/' :: pr) = (host, some pr) :=
        splitFirst_append '/' host pr hhs
      have hs4 : splitFirst ':' host = (host, none) :=
        splitFirst_of_not_mem ':' _ hhc
      have hpq : parseQueryChars (serializeQuery (kv :: q2)) = kv :: q2 :=
        parseQueryChars_serialize (kv :: q2) (by simp) hqsep
      rw [ht]
      simp only [parseCore, hs0, hs1, hs2, hs3, hs4, hse, hsok, hhe, hslow, hpq,
        Bool.not_true, Bool.false_eq_true, if_false]
  | some ps =>
    obtain ⟨hpsne, hpsd⟩ := hpok ps rfl
    have hpse : ps.isEmpty = false := isEmpty_false_of_ne_nil hpsne
    have hpsf := fun c hm => digit_facts (List.all_eq_true.mp hpsd c hm)
    cases q with
    | nil =>
      have hnh : '#' ∉ host ++ ':' :: (ps ++ '/' :: pr) := by
        intro hm
        simp only [List.mem_append, List.mem_cons] at hm
        rcases hm with h1 | h1 | h1 | h1 | h1
        · exact hhh h1
        · exact absurd h1 (by decide)
        · exact (hpsf _ h1).2.2.2.1 rfl
        · exact absurd h1 (by decide)
        · exact hprh h1
      have hnq : '?' ∉ host ++ ':' :: (ps ++ '/' :: pr) := by
        intro hm
        simp only [List.mem_append, List.mem_cons] at hm
        rcases hm with h1 | h1 | h1 | h1 | h1
        · exact hhq h1
        · exact absurd h1 (by decide)
        · exact (hpsf _ h1).2.2.1 rfl
        · exact absurd h1 (by decide)
        · exact hprq h1
      have hnsl : '/' ∉ host ++ ':' :: ps := by
        intro hm
        simp only [List.mem_append, List.mem_cons] at hm
        rcases hm with h1 | h1 | h1
        · exact hhs h1
        · exact absurd h1 (by decide)
        · exact (hpsf _ h1).2.1 rfl
      have ht : serializeUrl ⟨sch, host, some ps, '/' :: pr, [], none⟩
          = sch ++ ':' :: '/' :: '/' :: (host ++ ':' :: (ps ++ '/' :: pr)) := by
        simp [serializeUrl]
      have hs0 : splitFirst ':' (sch ++ ':' :: '/' :: '/' :: (host ++ ':' :: (ps ++ '/' :: pr)))
          = (sch, some ('/' :: '/' :: (host ++ ':' :: (ps ++ '/' :: pr)))) :=
        splitFirst_append ':' sch _ hns
      have hs1 : splitFirst '#' (host ++ ':' :: (ps ++ '/' :: pr))
          = (host ++ ':' :: (ps ++ '/' :: pr), none) :=
        splitFirst_of_not_mem '#' _ hnh
      have hs2 : splitFirst '?' (host ++ ':' :: (ps ++ '/' :: pr))
          = (host ++ ':' :: (ps ++ '/' :: pr), none) :=
        splitFirst_of_not_mem '?' _ hnq
      have hs3 : splitFirst '/' (host ++ ':' :: (ps ++ '/' :: pr))
          = (host ++ ':' :: ps, some pr) := by
        have h := splitFirst_append '/' (host ++ ':' :: ps) pr hnsl
        simp only [List.append_assoc, List.cons_append] at h
        exact h
      have hs4 : splitFirst ':' (host ++ ':' :: ps) = (host, some ps) :=
        splitFirst_append ':' host ps hhc
      rw [ht]
      simp only [parseCore, hs0, hs1, hs2, hs3, hs4, hse, hsok, hhe, hslow, hpse, hpsd,
        Bool.not_true, Bool.false_eq_true, if_false, if_true]
    | cons kv q2 =>
      have hqsep : ∀ kv2 ∈ kv :: q2, '&' ∉ kv2.1 ∧ '=' ∉ kv2.1 ∧ '&' ∉ kv2.2 := by
        intro kv2 hm
        exact ⟨fun hx => ((hqok kv2 hm).1 _ hx).1 rfl,
          fun hx => ((hqok kv2 hm).1 _ hx).2.1 rfl,
          fun hx => ((hqok kv2 hm).2 _ hx).1 rfl⟩
      have hsqh : '#' ∉ serializeQuery (kv :: q2) := by
        intro hm
        rcases mem_serializeQuery hm with h1 | h1 | ⟨kv2, hkv2, h1 | h1⟩
        · exact absurd h1 (by decide)
        · exact absurd h1 (by decide)
        · exact ((hqok kv2 hkv2).1 _ h1).2.2.1 rfl
        · exact ((hqok kv2 hkv2).2 _ h1).2.1 rfl
      have hnh : '#' ∉ host ++ ':' :: (ps ++ '/' :: (pr ++ '?' :: serializeQuery (kv :: q2))) := by
        intro hm
        simp only [List.mem_append, List.mem_cons] at hm
        rcases hm with h1 | h1 | h1 | h1 | h1 | h1 | h1
        · exact hhh h1
        · exact absurd h1 (by decide)
        · exact (hpsf _ h1).2.2.2.1 rfl
        · exact absurd h1 (by decide)
        · exact hprh h1
        · exact absurd h1 (by decide)
        · exact hsqh h1
      have hnq : '?' ∉ host ++ ':' :: (ps ++ '/' :: pr) := by
        intro hm
        simp only [List.mem_append, List.mem_cons] at hm
        rcases hm with h1 | h1 | h1 | h1 | h1
        · exact hhq h1
        · exact absurd h1 (by decide)
        · exact (hpsf _ h1).2.2.1 rfl
        · exact absurd h1 (by decide)
        · exact hprq h1
      have hnsl : '/' ∉ host ++ ':' :: ps := by
        intro hm
        simp only [List.mem_append, List.mem_cons] at hm
        rcases hm with h1 | h1 | h1
        · exact hhs h1
        · exact absurd h1 (by decide)
        · exact (hpsf _ h1).2.1 rfl
      have ht : serializeUrl ⟨sch, host, some ps, '/' :: pr, kv :: q2, none⟩
          = sch ++ ':' :: '/' :: '/' ::
              (host ++ ':' :: (ps ++ '/' :: (pr ++ '?' :: serializeQuery (kv :: q2)))) := by
        simp [serializeUrl]
      have hs0 : splitFirst ':'
            (sch ++ ':' :: '/' :: '/' ::
              (host ++ ':' :: (ps ++ '/' :: (pr ++ '?' :: serializeQuery (kv :: q2)))))
          = (sch, some ('/' :: '/' ::
              (host ++ ':' :: (ps ++ '/' :: (pr ++ '?' :: serializeQuery (kv :: q2)))))) :=
        splitFirst_append ':' sch _ hns
      have hs1 : splitFirst '#'
            (host ++ ':' :: (ps ++ '/' :: (pr ++ '?' :: serializeQuery (kv :: q2))))
          = (host ++ ':' :: (ps ++ '/' :: (pr ++ '?' :: serializeQuery (kv :: q2))), none) :=
        splitFirst_of_not_mem '#' _ hnh
      have hs2 : splitFirst '?'
            (host ++ ':' :: (ps ++ '/' :: (pr ++ '?' :: serializeQuery (kv :: q2))))
          = (host ++ ':' :: (ps ++ '/' :: pr), some (serializeQuery (kv :: q2))) := by
        have h := splitFirst_append '?' ((host ++ ':' :: ps) ++ '/' :: pr)
          (serializeQuery (kv :: q2)) (by
            intro hm
            rcases List.mem_append.mp hm with h1 | h1
            · exact hnq (by
                simp only [List.mem_append, List.mem_cons] at h1 ⊢
                tauto)
            · rcases List.mem_cons.mp h1 with h2 | h2
              · exact absurd h2 (by decide)
              · exact hprq h2)
        simp only [List.append_assoc, List.cons_append] at h
        exact h
      have hs3 : splitFirst '/' (host ++ ':' :: (ps ++ '/' :: pr))
          = (host ++ ':' :: ps, some pr) := by
        have h := splitFirst_append '/' (host ++ ':' :: ps) pr hnsl
        simp only [List.append_assoc, List.cons_append] at h
        exact h
      have hs4 : splitFirst ':' (host ++ ':' :: ps) = (host, some ps) :=
        splitFirst_append ':' host ps hhc
      have hpq : parseQueryChars (serializeQuery (kv :: q2)) = kv :: q2 :=
        parseQueryChars_serialize (kv :: q2) (by simp) hqsep
      rw [ht]
      simp only [parseCore, hs0, hs1, hs2, hs3, hs4, hse, hsok, hhe, hslow, hpse, hpsd, hpq,
        Bool.not_true, Bool.false_eq_true, if_false, if_true]

theorem map_toLower_idem (l : List Char) :
    (l.map Char.toLower).map Char.toLower = l.map Char.toLower := by
  rw [List.map_map]
  rw [show Char.toLower ∘ Char.toLower = Char.toLower from funext toLower_idem]

theorem isEmpty_map_toLower (l : List Char) :
    (l.map Char.toLower).isEmpty = l.isEmpty := by
  cases l with
  | nil => rfl
  | cons c rest => rfl

theorem all_scheme_map_toLower (l : List Char) :
    (l.map Char.toLower).all isSchemeCharB = l.all isSchemeCharB := by
  rw [List.all_map]
  rw [show isSchemeCharB ∘ Char.toLower = isSchemeCharB from funext isSchemeCharB_toLower]

theorem all_digit_map_toLower (l : List Char) :
    (l.map Char.toLower).all isDigitB = l.all isDigitB := by
  rw [List.all_map]
  rw [show isDigitB ∘ Char.toLower = isDigitB from funext isDigitB_toLower]

theorem splitFirst_map_toLower (sep : Char) (hd1 : ¬ (65 ≤ sep.toNat ∧ sep.toNat ≤ 90))
    (hd2 : ¬ (97 ≤ sep.toNat ∧ sep.toNat ≤ 122)) (l : List Char) :
    splitFirst sep (l.map Char.toLower)
      = ((splitFirst sep l).1.map Char.toLower,
          ((splitFirst sep l).2).map (List.map Char.toLower)) := by
  induction l with
  | nil => rfl
  | cons c rest ih =>
    simp only [List.map_cons, splitFirst, toLower_beq_sep hd1 hd2 c]
    by_cases hc : (c == sep) = true
    · simp [hc]
    · have hc2 : (c == sep) = false := Bool.eq_false_iff.mpr hc
      simp [hc2, ih]

theorem parseCore_lower_none (t : List Char) (h : parseCore t = none) :
    parseCore (t.map Char.toLower) = none := by
  obtain ⟨sfst, ssnd, hsp⟩ : ∃ a b, splitFirst ':' t = (a, b) := ⟨_, _, rfl⟩
  have hsp2 : splitFirst ':' (t.map Char.toLower)
      = (sfst.map Char.toLower, ssnd.map (List.map Char.toLower)) := by
    rw [splitFirst_map_toLower ':' (by decide) (by decide) t, hsp]
  simp only [parseCore, hsp, hsp2] at h ⊢
  cases ssnd with
  | none => simp
  | some rest =>
    simp only [Option.map_some'] at h ⊢
    rw [isEmpty_map_toLower, all_scheme_map_toLower]
    by_cases he : sfst.isEmpty = true
    · simp [he]
    · have he2 : sfst.isEmpty = false := Bool.eq_false_iff.mpr he
      by_cases hall : sfst.all isSchemeCharB = true
      · simp only [he2, hall, Bool.not_true, Bool.false_eq_true, if_false] at h ⊢
        split at h
        · rename_i rest2
          obtain ⟨a1, b1, hq1⟩ : ∃ a b, splitFirst '#' rest2 = (a, b) := ⟨_, _, rfl⟩
          have hq1m : splitFirst '#' (rest2.map Char.toLower)
              = (a1.map Char.toLower, b1.map (List.map Char.toLower)) := by
            rw [splitFirst_map_toLower '#' (by decide) (by decide) rest2, hq1]
          obtain ⟨a2, b2, hq2⟩ : ∃ a b, splitFirst '?' a1 = (a, b) := ⟨_, _, rfl⟩
          have hq2m : splitFirst '?' (a1.map Char.toLower)
              = (a2.map Char.toLower, b2.map (List.map Char.toLower)) := by
            rw [splitFirst_map_toLower '?' (by decide) (by decide) a1, hq2]
          obtain ⟨a3, b3, hq3⟩ : ∃ a b, splitFirst '/' a2 = (a, b) := ⟨_, _, rfl⟩
          have hq3m : splitFirst '/' (a2.map Char.toLower)
              = (a3.map Char.toLower, b3.map (List.map Char.toLower)) := by
            rw [splitFirst_map_toLower '/' (by decide) (by decide) a2, hq3]
          obtain ⟨a4, b4, hq4⟩ : ∃ a b, splitFirst ':' a3 = (a, b) := ⟨_, _, rfl⟩
          have hq4m : splitFirst ':' (a3.map Char.toLower)
              = (a4.map Char.toLower, b4.map (List.map Char.toLower)) := by
            rw [splitFirst_map_toLower ':' (by decide) (by decide) a3, hq4]
          split
          · rename_i r heq
            simp only [List.map_cons, List.cons.injEq] at heq
            obtain ⟨hh1, hh2, hh3⟩ := heq
            subst hh3
            simp only [hq1, hq1m, hq2, hq2m, hq3, hq3m, hq4, hq4m] at h ⊢
            rw [isEmpty_map_toLower]
            by_cases hhe : a4.isEmpty = true
            · simp [hhe]
            · have hhe2 : a4.isEmpty = false := Bool.eq_false_iff.mpr hhe
              simp only [hhe2, Bool.false_eq_true, if_false] at h ⊢
              cases b4 with
              | none => simp at h
              | some ps =>
                simp only [Option.map_some'] at h ⊢
                rw [isEmpty_map_toLower, all_digit_map_toLower]
                by_cases hpe : ps.isEmpty = true
                · rw [if_pos hpe] at h
                  simp at h
                · have hpe2 : ps.isEmpty = false := Bool.eq_false_iff.mpr hpe
                  simp only [hpe2, Bool.false_eq_true, if_false] at h ⊢
                  by_cases hpd : ps.all isDigitB = true
                  · rw [if_pos hpd] at h
                    simp at h
                  · have hpd2 : ps.all isDigitB = false := Bool.eq_false_iff.mpr hpd
                    simp only [hpd2, Bool.false_eq_true, if_false]
          · rename_i hne
            exact (hne (rest2.map Char.toLower)
              (by simp [show Char.toLower '/' = '/' from by decide])).elim
        · rename_i hne
          split
          · rename_i r heq
            rcases rest with _ | ⟨c1, _ | ⟨c2, rr⟩⟩
            · simp at heq
            · simp at heq
            · simp only [List.map_cons, List.cons.injEq] at heq
              obtain ⟨hh1, hh2, hh3⟩ := heq
              have hc1 : c1 = '/' := (toLower_eq_iff (by decide) (by decide)).mp hh1
              have hc2 : c2 = '/' := (toLower_eq_iff (by decide) (by decide)).mp hh2
              subst hc1
              subst hc2
              exact absurd rfl (hne rr)
          · rfl
      · have hall2 : sfst.all isSchemeCharB = false := Bool.eq_false_iff.mpr hall
        simp [hall2, he2]

theorem isDefaultPort_none (sch : List Char) : isDefaultPort sch none = false := by
  simp [isDefaultPort]

theorem normalizeParts_idem (p : UrlParts)
    (hguard : stripTrailingSlash (stripTrailingSlash p.path) = stripTrailingSlash p.path) :
    normalizeParts (normalizeParts p) = normalizeParts p := by
  simp only [normalizeParts, UrlParts.mk.injEq]
  refine ⟨trivial, map_toLower_idem p.host, ?_, hguard, sortParams_idem p.query, trivial⟩
  by_cases hd : isDefaultPort p.scheme p.port = true
  · simp [hd, isDefaultPort_none]
  · have hd2 : isDefaultPort p.scheme p.port = false := Bool.eq_false_iff.mpr hd
    simp [hd2]

theorem parseUrl_serialize (p : UrlParts) (hc : Canon p) :
    parseUrl (serializeUrl p) = some p := by
  have hws := serializeUrl_no_ws p hc
  have htr : trimChars (serializeUrl p) = serializeUrl p := trimChars_eq_self _ hws
  have hany : (serializeUrl p).any isWsChar = false := by
    rw [List.any_eq_false]
    intro c hm
    simp [hws c hm]
  simp only [parseUrl, htr, hany, Bool.false_eq_true, if_false]
  exact parseCore_serialize p hc

theorem normalizeUrl_fallback_fixed (s : String) (hp : parseUrl s.data = none) :
    normalizeUrl (String.mk (trimChars (s.data.map Char.toLower)))
      = String.mk (trimChars (s.data.map Char.toLower)) := by
  have hdata : (String.mk (trimChars (s.data.map Char.toLower))).data
      = trimChars (s.data.map Char.toLower) := rfl
  have hu : trimChars (s.data.map Char.toLower) = (trimChars s.data).map Char.toLower :=
    trimChars_map_toLower s.data
  have htu : trimChars (trimChars (s.data.map Char.toLower))
      = trimChars (s.data.map Char.toLower) := trimChars_idem _
  have hmu : (trimChars (s.data.map Char.toLower)).map Char.toLower
      = trimChars (s.data.map Char.toLower) := by
    rw [hu, map_toLower_idem]
  simp only [parseUrl] at hp
  have hfall : parseUrl (trimChars (s.data.map Char.toLower)) = none := by
    simp only [parseUrl, htu]
    by_cases ha0 : (trimChars s.data).any isWsChar = true
    · have ha1 : (trimChars (s.data.map Char.toLower)).any isWsChar = true := by
        rw [hu, List.any_map]
        rw [show (isWsChar ∘ Char.toLower) = isWsChar from funext isWsChar_toLower]
        exact ha0
      simp [ha1]
    · have ha0f : (trimChars s.data).any isWsChar = false := Bool.eq_false_iff.mpr ha0
      have ha1 : (trimChars (s.data.map Char.toLower)).any isWsChar = false := by
        rw [hu, List.any_map]
        rw [show (isWsChar ∘ Char.toLower) = isWsChar from funext isWsChar_toLower]
        exact ha0f
      simp only [ha1, Bool.false_eq_true, if_false]
      rw [ha0f] at hp
      simp only [Bool.false_eq_true, if_false] at hp
      rw [hu]
      exact parseCore_lower_none _ hp
  simp only [normalizeUrl, hdata, hfall]
  rw [hmu, htu]

/-- C8 counterexample: the claimed unconditional idempotence of `normalizeUrl`
fails.  On `"http://example.com/a//"` the parsed path is `/a//`; each
normalization pass strips exactly one trailing slash, so the first pass yields
`http://example.com/a/` and the second yields `http://example.com/a` — a
different string. -/
theorem c8_normalize_counterexample :
    normalizeUrl (normalizeUrl (String.mk
        ('h' :: 't' :: 't' :: 'p' :: ':' :: '/' :: '/' :: 'e' :: 'x' :: 'a' :: 'm' :: 'p'
          :: 'l' :: 'e' :: '.' :: 'c' :: 'o' :: 'm' :: '/' :: 'a' :: '/' :: '/' :: [])))
      ≠ normalizeUrl (String.mk
        ('h' :: 't' :: 't' :: 'p' :: ':' :: '/' :: '/' :: 'e' :: 'x' :: 'a' :: 'm' :: 'p'
          :: 'l' :: 'e' :: '.' :: 'c' :: 'o' :: 'm' :: '/' :: 'a' :: '/' :: '/' :: [])) := by
  decide

/-- C8 (corrected): `normalizeUrl` is idempotent on every input except those
whose parsed path still ends in a slash after one strip — precisely, whenever
one application of the trailing-slash removal to the parsed path is a fixed
point of a second application.  (Paths with a double trailing slash violate
this and lose one slash per pass; see the counterexample.)  In particular the
fallback branch for unparseable inputs — lowercase and trim — is always
idempotent, with no side condition. -/
theorem c8_normalize_idempotent (s : String)
    (h : ∀ p, parseUrl s.data = some p →
      stripTrailingSlash (stripTrailingSlash p.path) = stripTrailingSlash p.path) :
    normalizeUrl (normalizeUrl s) = normalizeUrl s := by
  cases hp : parseUrl s.data with
  | none =>
    have h1 : normalizeUrl s = String.mk (trimChars (s.data.map Char.toLower)) := by
      simp only [normalizeUrl, hp]
    rw [h1]
    exact normalizeUrl_fallback_fixed s hp
  | some p =>
    have h1 : normalizeUrl s = String.mk (serializeUrl (normalizeParts p)) := by
      simp only [normalizeUrl, hp]
    rw [h1]
    have hcanon : Canon (normalizeParts p) := canon_of_parse s.data p hp
    have hround : parseUrl (serializeUrl (normalizeParts p)) = some (normalizeParts p) :=
      parseUrl_serialize _ hcanon
    have hdata : (String.mk (serializeUrl (normalizeParts p))).data
        = serializeUrl (normalizeParts p) := rfl
    simp only [normalizeUrl, hdata, hround]
    rw [normalizeParts_idem p (h p hp)]

/-- Witness for C8: the theorem applied at a parseable input with a single
trailing slash (where the side condition holds but is not vacuous) and at an
unparseable input that takes the fallback branch. -/
theorem c8_normalize_idempotent_witness :
    normalizeUrl (normalizeUrl (String.mk
        ('h' :: 't' :: 't' :: 'p' :: ':' :: '/' :: '/' :: 'e' :: 'x' :: 'a' :: 'm' :: 'p'
          :: 'l' :: 'e' :: '.' :: 'c' :: 'o' :: 'm' :: '/' :: 'x' :: '/' :: [])))
      = normalizeUrl (String.mk
        ('h' :: 't' :: 't' :: 'p' :: ':' :: '/' :: '/' :: 'e' :: 'x' :: 'a' :: 'm' :: 'p'
          :: 'l' :: 'e' :: '.' :: 'c' :: 'o' :: 'm' :: '/' :: 'x' :: '/' :: []))
    ∧ normalizeUrl (normalizeUrl (String.mk
        ('n' :: 'o' :: 't' :: ' ' :: 'a' :: ' ' :: 'u' :: 'r' :: 'l' :: [])))
      = normalizeUrl (String.mk
        ('n' :: 'o' :: 't' :: ' ' :: 'a' :: ' ' :: 'u' :: 'r' :: 'l' :: [])) := by
  constructor
  · exact c8_normalize_idempotent _ (by
      intro p hp
      have hpeq : parseUrl (String.mk
          ('h' :: 't' :: 't' :: 'p' :: ':' :: '/' :: '/' :: 'e' :: 'x' :: 'a' :: 'm' :: 'p'
            :: 'l' :: 'e' :: '.' :: 'c' :: 'o' :: 'm' :: '/' :: 'x' :: '/' :: [])).data
          = some { scheme := 'h' :: 't' :: 't' :: 'p' :: []
                   host := 'e' :: 'x' :: 'a' :: 'm' :: 'p' :: 'l' :: 'e' :: '.' :: 'c'
                     :: 'o' :: 'm' :: []
                   port := none
                   path := '/' :: 'x' :: '/' :: []
                   query := []
                   fragment := none } := by decide
      have h2 := hp.symm.trans hpeq
      rw [Option.some.injEq] at h2
      subst h2
      decide)
  · exact c8_normalize_idempotent _ (by
      intro p hp
      have hpeq : parseUrl (String.mk
          ('n' :: 'o' :: 't' :: ' ' :: 'a' :: ' ' :: 'u' :: 'r' :: 'l' :: [])).data
          = none := by decide
      rw [hpeq] at hp
      exact absurd hp (by simp))

/-- C9 counterexample: the spec's concrete pair is NOT normalization-equal.
In `"HTTP://Example.com:80/a?b=2&a=1/"` the trailing slash sits inside the
query value of `a` (the WHATWG parser reads the query as `b=2&a=1/`), so
after sorting the left side carries `a=1/` where the right side carries
`a=1`; the slash is not on the path, and path-level trailing-slash stripping
never touches it. -/
theorem c9_normalize_counterexample :
    normalizeUrl (String.mk
        ('H' :: 'T' :: 'T' :: 'P' :: ':' :: '/' :: '/' :: 'E' :: 'x' :: 'a' :: 'm' :: 'p'
          :: 'l' :: 'e' :: '.' :: 'c' :: 'o' :: 'm' :: ':' :: '8' :: '0' :: '/' :: 'a'
          :: '?' :: 'b' :: '=' :: '2' :: '&' :: 'a' :: '=' :: '1' :: '/' :: []))
      ≠ normalizeUrl (String.mk
        ('h' :: 't' :: 't' :: 'p' :: ':' :: '/' :: '/' :: 'e' :: 'x' :: 'a' :: 'm' :: 'p'
          :: 'l' :: 'e' :: '.' :: 'c' :: 'o' :: 'm' :: '/' :: 'a' :: '?' :: 'a' :: '='
          :: '1' :: '&' :: 'b' :: '=' :: '2' :: [])) := by
  decide

/-- C9 (corrected): with the trailing slash moved onto the path —
`"HTTP://Example.com:80/a/?b=2&a=1"` — normalization does erase all four
differences (scheme/host case, explicit default port 80, query-parameter
order, trailing path slash) and the two inputs normalize to the same
string. -/
theorem c9_normalize_equiv :
    normalizeUrl (String.mk
        ('H' :: 'T' :: 'T' :: 'P' :: ':' :: '/' :: '/' :: 'E' :: 'x' :: 'a' :: 'm' :: 'p'
          :: 'l' :: 'e' :: '.' :: 'c' :: 'o' :: 'm' :: ':' :: '8' :: '0' :: '/' :: 'a'
          :: '/' :: '?' :: 'b' :: '=' :: '2' :: '&' :: 'a' :: '=' :: '1' :: []))
      = normalizeUrl (String.mk
        ('h' :: 't' :: 't' :: 'p' :: ':' :: '/' :: '/' :: 'e' :: 'x' :: 'a' :: 'm' :: 'p'
          :: 'l' :: 'e' :: '.' :: 'c' :: 'o' :: 'm' :: '/' :: 'a' :: '?' :: 'a' :: '='
          :: '1' :: '&' :: 'b' :: '=' :: '2' :: [])) := by
  decide

end SnipLink